import Mathlib

/-!
Shallow embedding of `RRT::Node<T>` and `RRT::Tree<T>` from
`src/rrt.git/tags/v0.1.0/src/Tree.hpp`, and the properties of the tree
operations proved about it.

* A `Node<T> *` is an `Option Nat`: `none` is `nullptr`, `some i` is the node
  stored at position `i` of the owning tree's `_nodes` list.  The tree owns all
  of its nodes and only ever appends to `_nodes` (or clears it), so the position
  of a node identifies it for as long as it is alive.  Pointers to nodes of
  another tree have no counterpart.
* The `std::function` members of `Tree` are optional functions: `none` is an
  empty `std::function` (the constructor nulls them out), and calling it raises
  `std::bad_function_call`.  The callbacks are pure functions, except for
  `randomStateGenerator`, which is a function on an explicit generator state `G`.
* The `float` distances are only ever compared (`<`), so they are values of a
  linearly ordered ring `D`; NaN is not modelled.
* Undefined behaviour and exceptions are `Except.error` results.  Loops over
  parent links take a fuel argument, and running out of fuel is an error of its
  own kind: the theorems show that enough fuel gives a result.
-/

set_option autoImplicit false

namespace RRT

/-- A tree node: `_state`, `_children` and `_parent` of `Node<T>`; pointers are
positions in the owning tree's node list. -/
structure Node (T : Type) where
  _state : T
  _children : List Nat
  _parent : Option Nat
deriving DecidableEq, Repr

/-- Ways in which an operation does not return normally. -/
inductive Fault where
  /-- member access through `nullptr` (undefined behaviour) -/
  | nullDereference
  /-- member access through a pointer to no node of the tree (undefined behaviour) -/
  | danglingPointer
  /-- an empty `std::function` was called (`std::bad_function_call`) -/
  | badFunctionCall
  /-- the loop budget of the model ran out: the loop would still be running -/
  | outOfFuel
deriving DecidableEq, Repr

deriving instance DecidableEq for Except

/-- Member access `p->...` on nodes of the list `nodes`. -/
def deref {T : Type} (nodes : List (Node T)) : Option Nat → Except Fault (Node T)
  | none => .error .nullDereference
  | some i =>
    match nodes[i]? with
    | none => .error .danglingPointer
    | some n => .ok n

/-- Calling a `std::function` member: an empty one throws. -/
def bound {α : Type} : Option α → Except Fault α
  | none => .error .badFunctionCall
  | some f => .ok f

/-- The loop of `Node::depth()`: `ancestor` runs up the `_parent` links and `n`
counts them.  `fuel` bounds the number of iterations. -/
def depthLoop {T : Type} (nodes : List (Node T)) : Nat → Option Nat → Nat → Except Fault Nat
  | _, none, n => .ok n
  | 0, some _, _ => .error .outOfFuel
  | fuel + 1, some a, n =>
    match nodes[a]? with
    | none => .error .danglingPointer
    | some ancestor => depthLoop nodes fuel ancestor._parent (n + 1)

/-- The method `Node::depth()` called on the node `this`.  The `int` counter is a
`Nat`: in a reachable tree it stays below the number of nodes (`parent_chain`),
so an `int` holds it as long as the tree has fewer than `2^31` nodes. -/
def depth {T : Type} (nodes : List (Node T)) (fuel : Nat) (this : Nat) : Except Fault Nat :=
  match nodes[this]? with
  | none => .error .danglingPointer
  | some self => depthLoop nodes fuel self._parent 0

/-- The class `RRT::Tree<T>`: the five callbacks, `_nodes` and `_maxIterations`. -/
structure Tree (T G D : Type) where
  transitionValidator : Option (T → T → Bool)
  randomStateGenerator : Option (G → T × G)
  distanceCalculator : Option (T → T → D)
  goalProximityChecker : Option (T → Bool)
  intermediateStateGenerator : Option (T → T → T)
  _nodes : List (Node T)
  _maxIterations : Int

/-- The constructor `Tree::Tree()`: 1000 iterations, all callbacks empty, no nodes. -/
def Tree.new (T G D : Type) : Tree T G D where
  transitionValidator := none
  randomStateGenerator := none
  distanceCalculator := none
  goalProximityChecker := none
  intermediateStateGenerator := none
  _nodes := []
  _maxIterations := 1000

/-- The getter `Tree::maxIterations`. -/
def Tree.maxIterations {T G D : Type} (t : Tree T G D) : Int := t._maxIterations

/-- The setter `Tree::setMaxIterations`. -/
def Tree.setMaxIterations {T G D : Type} (t : Tree T G D) (itr : Int) : Tree T G D :=
  { t with _maxIterations := itr }

/-- The method `Tree::reset`: all nodes are deleted and the list is cleared. -/
def Tree.reset {T G D : Type} (t : Tree T G D) : Tree T G D :=
  { t with _nodes := [] }

/-- The constructor `Node(state, parent)` of the node that will live at position
`this`: it registers itself with its parent's `_children`.  Returns the list
of existing nodes after that registration and the new node.  Both callers
hand in a parent that is null or has just been dereferenced. -/
def Node.new {T : Type} (nodes : List (Node T)) (this : Nat) (state : T) (parent : Option Nat) :
    List (Node T) × Node T :=
  match parent with
  | none => (nodes, ⟨state, [], none⟩)
  | some p =>
    match nodes[p]? with
    | none => (nodes, ⟨state, [], some p⟩)
    | some pn => (nodes.set p { pn with _children := pn._children ++ [this] }, ⟨state, [], some p⟩)

/-- The method `Tree::setup`: reset, then the root node built from `start` is pushed. -/
def Tree.setup {T G D : Type} (t : Tree T G D) (start : T) : Tree T G D :=
  let t1 := t.reset
  let r := Node.new t1._nodes t1._nodes.length start none
  { t1 with _nodes := r.1 ++ [r.2] }

/-- The scan of `Tree::nearest` over `_nodes`; `i` is the position of `other`.  The
callback is only called inside the loop, so an empty one throws only when there
is a node to visit. -/
def nearestLoop {T D : Type} [LinearOrderedRing D] (distanceCalculator : Option (T → T → D))
    (state : T) : List (Node T) → Nat → D → Option Nat → Except Fault (D × Option Nat)
  | [], _, bestDistance, best => .ok (bestDistance, best)
  | other :: rest, i, bestDistance, best =>
    match distanceCalculator with
    | none => .error .badFunctionCall
    | some f =>
      let dist := f other._state state
      if bestDistance < 0 ∨ dist < bestDistance then
        nearestLoop distanceCalculator state rest (i + 1) dist (some i)
      else
        nearestLoop distanceCalculator state rest (i + 1) bestDistance best

/-- The method `Tree::nearest`: the returned pointer and the value written to
`distanceOut`. -/
def Tree.nearest {T G D : Type} [LinearOrderedRing D] (t : Tree T G D) (state : T) :
    Except Fault (Option Nat × D) :=
  match nearestLoop t.distanceCalculator state t._nodes 0 (-1) none with
  | .error e => .error e
  | .ok (bestDistance, best) => .ok (best, bestDistance)

/-- The method `Tree::extend`: the returned pointer and the tree afterwards. -/
def Tree.extend {T G D : Type} [LinearOrderedRing D] (t : Tree T G D) (target : T)
    (source : Option Nat) : Except Fault (Option Nat × Tree T G D) :=
  let found : Except Fault (Option Nat) :=
    match source with
    | some s => .ok (some s)
    | none =>
      match t.nearest target with
      | .error e => .error e
      | .ok (best, _) => .ok best
  match found with
  | .error e => .error e
  | .ok none => .ok (none, t)
  | .ok (some s) =>
    match deref t._nodes (some s) with
    | .error e => .error e
    | .ok sourceNode =>
      match bound t.intermediateStateGenerator with
      | .error e => .error e
      | .ok gen =>
        let intermediateState := gen sourceNode._state target
        match bound t.transitionValidator with
        | .error e => .error e
        | .ok valid =>
          if !valid sourceNode._state intermediateState then .ok (none, t)
          else
            let n := t._nodes.length
            let r := Node.new t._nodes n intermediateState (some s)
            .ok (some n, { t with _nodes := r.1 ++ [r.2] })

/-- The method `Tree::grow`: one random state is drawn, then `extend` toward it. -/
def Tree.grow {T G D : Type} [LinearOrderedRing D] (t : Tree T G D) (g : G) :
    Except Fault (Option Nat × Tree T G D × G) :=
  match bound t.randomStateGenerator with
  | .error e => .error e
  | .ok rnd =>
    let randState := (rnd g).1
    match t.extend randState none with
    | .error e => .error e
    | .ok (n, t1) => .ok (n, t1, (rnd g).2)

/-- The loop of `Tree::run` with `k` iterations still to go; the goal check is
only made on a non-null node. -/
def runLoop {T G D : Type} [LinearOrderedRing D] :
    Nat → Tree T G D → G → Except Fault (Bool × Tree T G D × G)
  | 0, t, g => .ok (false, t, g)
  | k + 1, t, g =>
    match t.grow g with
    | .error e => .error e
    | .ok (none, t1, g1) => runLoop k t1 g1
    | .ok (some n, t1, g1) =>
      match deref t1._nodes (some n) with
      | .error e => .error e
      | .ok newNode =>
        match bound t1.goalProximityChecker with
        | .error e => .error e
        | .ok goal =>
          if goal newNode._state then .ok (true, t1, g1) else runLoop k t1 g1

/-- The method `Tree::run`: `setup`, then at most `_maxIterations` rounds of
`grow` (none when `_maxIterations` is zero or negative). -/
def Tree.run {T G D : Type} [LinearOrderedRing D] (t : Tree T G D) (g : G) (start : T) :
    Except Fault (Bool × Tree T G D × G) :=
  runLoop t._maxIterations.toNat (t.setup start) g

/-- The method `Tree::rootNode`. -/
def Tree.rootNode {T G D : Type} (t : Tree T G D) : Option Nat :=
  if t._nodes.isEmpty then none else some 0

/-- The method `Tree::lastNode`. -/
def Tree.lastNode {T G D : Type} (t : Tree T G D) : Option Nat :=
  if t._nodes.isEmpty then none else some (t._nodes.length - 1)

/-- The method `Tree::allNodes`. -/
def Tree.allNodes {T G D : Type} (t : Tree T G D) : List (Node T) := t._nodes

/-- What `Tree::getPath` hands out: a state passed to its parameter `callback`,
or a state passed to the function the source names `call`.  `call` is declared
nowhere in `Tree.hpp`; being called on a value of type `T` it is resolved when
the template is instantiated, and it is not the parameter `callback`. -/
inductive Invocation (T : Type) where
  | callback (stateI : T)
  | call (state : T)
deriving DecidableEq, Repr

/-- The states a sequence of invocations passes to `callback`. -/
def received {T : Type} : List (Invocation T) → List T
  | [] => []
  | .callback s :: rest => s :: received rest
  | .call _ :: rest => received rest

/-- The loop of the `reverse` branch of `Tree::getPath`: each node of the chain
is passed to `call`. -/
def reverseLoop {T : Type} (nodes : List (Node T)) :
    Nat → Option Nat → Except Fault (List (Invocation T))
  | _, none => .ok []
  | 0, some _ => .error .outOfFuel
  | fuel + 1, some i =>
    match deref nodes (some i) with
    | .error e => .error e
    | .ok n =>
      match reverseLoop nodes fuel n._parent with
      | .error e => .error e
      | .ok rest => .ok (.call n._state :: rest)

/-- The first loop of the forward branch of `Tree::getPath`: the chain is pushed
to the front of the local list; returns that list and the final value of
`node`. -/
def collectLoop {T : Type} (nodes : List (Node T)) :
    Nat → Option Nat → List Nat → Except Fault (List Nat × Option Nat)
  | _, none, acc => .ok (acc, none)
  | 0, some _, _ => .error .outOfFuel
  | fuel + 1, some i, acc =>
    match deref nodes (some i) with
    | .error e => .error e
    | .ok n => collectLoop nodes fuel n._parent (i :: acc)

/-- The second loop of the forward branch of `Tree::getPath`: one callback per
collected node, each time with the state of `node`. -/
def emitLoop {T : Type} (nodes : List (Node T)) (node : Option Nat) :
    List Nat → Except Fault (List (Invocation T))
  | [] => .ok []
  | _ :: rest =>
    match deref nodes node with
    | .error e => .error e
    | .ok nd =>
      match emitLoop nodes node rest with
      | .error e => .error e
      | .ok more => .ok (.callback nd._state :: more)

/-- The callback overload of `Tree::getPath`: the invocations made, in order. -/
def Tree.getPath {T G D : Type} (t : Tree T G D) (fuel : Nat) (dest : Option Nat)
    (reverse : Bool) : Except Fault (List (Invocation T)) :=
  if reverse then reverseLoop t._nodes fuel dest
  else
    match collectLoop t._nodes fuel dest [] with
    | .error e => .error e
    | .ok (collected, node) => emitLoop t._nodes node collected

/-- The vector overload of `Tree::getPath`: the callback appends to `vectorOut`. -/
def Tree.getPathVector {T G D : Type} (t : Tree T G D) (fuel : Nat) (vectorOut : List T)
    (dest : Option Nat) (reverse : Bool) : Except Fault (List T) :=
  match t.getPath fuel dest reverse with
  | .error e => .error e
  | .ok invocations => .ok (vectorOut ++ received invocations)

/-- State and parent link of a node: what `state()` and `parent()` return. -/
def Node.link {T : Type} (n : Node T) : T × Option Nat := (n._state, n._parent)

/-- Invariant of the scan in `Tree::nearest` once the nodes `pre` have been
visited: nothing seen yet, or `best` is the first node of `pre` at the least
distance `bd`. -/
def ScanInv {T D : Type} [LinearOrderedRing D] (dist : T → T → D) (state : T)
    (pre : List (Node T)) (bd : D) (best : Option Nat) : Prop :=
  (pre = [] ∧ best = none ∧ bd < 0) ∨
  ∃ (b : Nat) (bn : Node T), best = some b ∧ pre[b]? = some bn ∧ bd = dist bn._state state ∧
    (∀ (j : Nat) (n : Node T), pre[j]? = some n → bd ≤ dist n._state state) ∧
    (∀ (j : Nat) (n : Node T), pre[j]? = some n → dist n._state state = bd → b ≤ j)

/-- Example callbacks on the integer line: one unit step toward the target. -/
def lineStep (a b : Int) : Int := if a < b then a + 1 else if b < a then a - 1 else a

/-- Example callbacks on the integer line: the state 7 is an obstacle. -/
def lineValid (_a b : Int) : Bool := decide (b ≠ 7)

/-- Example callbacks on the integer line: distance. -/
def lineDist (a b : Int) : Int := |a - b|

/-- Example callbacks on the integer line: the samples are read off a list. -/
def lineRandom (g : List Int) : Int × List Int := (g.headD 0, g.tail)

/-- Example callbacks on the integer line: the goal is everything from 10 on. -/
def lineGoal (s : Int) : Bool := decide (10 ≤ s)

/-- A planner on the integer line with the given nodes. -/
def lineTree (nodes : List (Node Int)) (maxIterations : Int) : Tree Int (List Int) Int where
  transitionValidator := some lineValid
  randomStateGenerator := some lineRandom
  distanceCalculator := some lineDist
  goalProximityChecker := some lineGoal
  intermediateStateGenerator := some lineStep
  _nodes := nodes
  _maxIterations := maxIterations

/-- Trees obtained from `setup` by calls of `extend` and `grow` that return
normally; a source handed to `extend` is null or a node of the tree. -/
inductive Reachable {T G D : Type} [LinearOrderedRing D] : Tree T G D → Prop where
  | setup (t : Tree T G D) (start : T) : Reachable (t.setup start)
  | extend (t t' : Tree T G D) (target : T) (source r : Option Nat) :
      Reachable t → (∀ s, source = some s → s < t._nodes.length) →
      t.extend target source = .ok (r, t') → Reachable t'
  | grow (t t' : Tree T G D) (g g' : G) (r : Option Nat) :
      Reachable t → t.grow g = .ok (r, t', g') → Reachable t'

/-- Shape of the parent links: the first node has no parent, every later node
has a parent at an earlier position, and `P` holds of the two states of every
edge. -/
def EdgesOK {T : Type} (P : T → T → Prop) (nodes : List (Node T)) : Prop :=
  (∃ root : Node T, nodes[0]? = some root ∧ root._parent = none) ∧
  ∀ (i : Nat) (n : Node T), nodes[i]? = some n → 0 < i →
    ∃ (p : Nat) (pn : Node T), n._parent = some p ∧ p < i ∧ nodes[p]? = some pn ∧
      P pn._state n._state

/-- The node reached from node `i` by following `_parent` exactly `k` times. -/
def ancestorAt {T : Type} (nodes : List (Node T)) : Nat → Nat → Option Nat
  | 0, i => some i
  | k + 1, i =>
    match nodes[i]? with
    | none => none
    | some n =>
      match n._parent with
      | none => none
      | some p => ancestorAt nodes k p

/-- The line planner after `setup 3` and one step toward 20. -/
def lineTwo : Tree Int (List Int) Int := lineTree [⟨3, [1], none⟩, ⟨4, [], some 0⟩] 5

/-- The outcome of `k` further calls of `grow` in a row: the node returned by the
last call (`r` when `k = 0`), the tree and the generator state. -/
def growN {T G D : Type} [LinearOrderedRing D] :
    Nat → Option Nat → Tree T G D → G → Except Fault (Option Nat × Tree T G D × G)
  | 0, r, t, g => .ok (r, t, g)
  | k + 1, _, t, g =>
    match t.grow g with
    | .error e => .error e
    | .ok (r1, t1, g1) => growN k r1 t1 g1

/-- Whether `r` is a non-null node of `t` whose state satisfies
`goalProximityChecker`. -/
def atGoal {T G D : Type} (t : Tree T G D) (r : Option Nat) : Bool :=
  match r with
  | none => false
  | some n =>
    match t._nodes[n]?, t.goalProximityChecker with
    | some newNode, some goal => goal newNode._state
    | _, _ => false

/-- Whether the `k`-th call of `grow` in a row returns a node at the goal. -/
def hitAt {T G D : Type} [LinearOrderedRing D] (k : Nat) (r : Option Nat) (t : Tree T G D)
    (g : G) : Bool :=
  match growN k r t g with
  | .error _ => false
  | .ok (r1, t1, _) => atGoal t1 r1

/-- The wording of `grow` as a refinement of `extend`: `randomStateGenerator` is
called once, giving `r`, and the result is that of `extend(r, nearest(r))`. -/
def growAsExtend {T G D : Type} [LinearOrderedRing D] (t : Tree T G D) (g : G) :
    Except Fault (Option Nat × Tree T G D × G) :=
  match bound t.randomStateGenerator with
  | .error e => .error e
  | .ok rnd =>
    let r := (rnd g).1
    match t.nearest r with
    | .error e => .error e
    | .ok (source, _) =>
      match t.extend r source with
      | .error e => .error e
      | .ok (n, t1) => .ok (n, t1, (rnd g).2)

/-- Example callbacks on the integer line: a distance callback whose values are
negative for states less than ten apart. -/
def lineNegDist (a b : Int) : Int := |a - b| - 10

/-- The line planner with nodes 3 and 4 and the negative distance callback. -/
def negTree : Tree Int (List Int) Int :=
  { (lineTree [⟨3, [1], none⟩, ⟨4, [], some 0⟩] 5) with distanceCalculator := some lineNegDist }

/-- A line planner in which every transition is rejected and every state is at
the goal. -/
def stuckTree (maxIterations : Int) : Tree Int (List Int) Int :=
  { (lineTree [] maxIterations) with
    transitionValidator := some (fun _ _ => false)
    goalProximityChecker := some (fun _ => true) }

/-- The way a `std::vector` operation of `GridRRTWidget::slot_reset` can be
undefined. -/
inductive VectorFault where
  /-- the call `erase(pos)` with an iterator that cannot be dereferenced, such as `end()` -/
  | notDereferenceable
deriving DecidableEq, Repr

/-- The call `v.erase(v.begin() + i)` of `std::vector`: the element at position
`i` is removed.  The iterator has to be dereferenceable, which `v.end()`, the
position `v.size()`, is not. -/
def vectorErase {P : Type} (v : List P) (i : Nat) : Except VectorFault (List P) :=
  if i < v.length then .ok (v.eraseIdx i) else .error .notDereferenceable

/-- The operations of the planner `BiRRT<Vector2f>` that `slot_reset` calls.  The
class is declared outside the files at hand, so its state `B` and these
operations are parameters. -/
structure BiRRTOps (B P : Type) where
  startSolutionNode : B → Option Nat
  goalSolutionNode : B → Option Nat
  reset : B → B
  setWaypoints : B → List P → B

/-- The members of `GridRRTWidget` that `slot_reset` reads and writes. -/
structure GridRRTWidget (B P : Type) where
  _biRRT : B
  _previousSolution : List P
  _waypointCacheMaxSize : Int

/-- The constructor `GridRRTWidget::GridRRTWidget()` around the planner it has
built and configured: the cache cap is 15 and there is no previous solution. -/
def GridRRTWidget.new {B P : Type} (biRRT : B) : GridRRTWidget B P where
  _biRRT := biRRT
  _previousSolution := []
  _waypointCacheMaxSize := 15

/-- The first part of `GridRRTWidget::slot_reset`: the local `waypoints` and the
member `_previousSolution` as they stand before `_biRRT->reset()`.
`downSampleVector` stands for `Planning::DownSampleVector`, declared outside the
files at hand. -/
def waypointCache {B P : Type} (planner : BiRRTOps B P)
    (downSampleVector : List P → Int → List P) (w : GridRRTWidget B P) :
    Except VectorFault (List P × List P) :=
  if (planner.startSolutionNode w._biRRT).isSome && (planner.goalSolutionNode w._biRRT).isSome
  then
    let waypoints := w._previousSolution
    if waypoints.length > 0 then
      match vectorErase waypoints 0 with
      | .error e => .error e
      | .ok afterFirst =>
        match vectorErase afterFirst afterFirst.length with
        | .error e => .error e
        | .ok afterLast =>
          .ok (downSampleVector afterLast w._waypointCacheMaxSize, w._previousSolution)
    else .ok (waypoints, w._previousSolution)
  else .ok ([], [])

/-- The slot `GridRRTWidget::slot_reset`: the waypoint cache is computed, the
planner is reset and handed the cache. -/
def GridRRTWidget.slot_reset {B P : Type} (planner : BiRRTOps B P)
    (downSampleVector : List P → Int → List P) (w : GridRRTWidget B P) :
    Except VectorFault (GridRRTWidget B P) :=
  match waypointCache planner downSampleVector w with
  | .error e => .error e
  | .ok (waypoints, previousSolution) =>
    .ok { w with
      _biRRT := planner.setWaypoints (planner.reset w._biRRT) waypoints
      _previousSolution := previousSolution }

/-- The waypoint list that is to be handed over after a solution: the previous
solution without its first and last state, down-sampled to the cap. -/
def interiorWaypoints {P : Type} (downSampleVector : List P → Int → List P)
    (previousSolution : List P) (cap : Int) : List P :=
  downSampleVector previousSolution.tail.dropLast cap

/-- A stand-in for the planner in examples: its two solution nodes and its
waypoint list. -/
structure PlannerStub where
  start : Option Nat
  goal : Option Nat
  waypoints : List Int
deriving DecidableEq, Repr

/-- The operations of the stand-in planner: `reset` drops the solution nodes. -/
def stubOps : BiRRTOps PlannerStub Int where
  startSolutionNode := fun b => b.start
  goalSolutionNode := fun b => b.goal
  reset := fun b => { b with start := none, goal := none }
  setWaypoints := fun b waypoints => { b with waypoints := waypoints }

/-- A stand-in for the down-sampling in examples: the first `cap` states. -/
def takeSample (v : List Int) (cap : Int) : List Int := v.take cap.toNat

theorem Node.new_snd {T : Type} (nodes : List (Node T)) (this : Nat) (state : T)
    (parent : Option Nat) : (Node.new nodes this state parent).2 = ⟨state, [], parent⟩ := by
  unfold Node.new
  split
  · rfl
  · split <;> rfl

theorem Node.new_length {T : Type} (nodes : List (Node T)) (this : Nat) (state : T)
    (parent : Option Nat) : (Node.new nodes this state parent).1.length = nodes.length := by
  unfold Node.new
  split
  · rfl
  · split <;> simp

theorem Node.new_get {T : Type} (nodes : List (Node T)) (this : Nat) (state : T)
    (parent : Option Nat) (i : Nat) :
    ((Node.new nodes this state parent).1[i]?).map Node.link = (nodes[i]?).map Node.link := by
  unfold Node.new
  split
  · rfl
  · rename_i p
    split
    · rfl
    · rename_i pn h
      simp only [List.getElem?_set]
      by_cases hpi : p = i
      · subst hpi
        have hlt : p < nodes.length := by
          rcases List.getElem?_eq_some.1 h with ⟨hlt, _⟩
          exact hlt
        simp [hlt, h, Node.link]
      · simp [hpi]

theorem Node.new_links {T : Type} (nodes : List (Node T)) (this : Nat) (state : T)
    (parent : Option Nat) :
    (Node.new nodes this state parent).1.map Node.link = nodes.map Node.link := by
  apply List.ext_getElem?
  intro i
  simp only [List.getElem?_map]
  exact Node.new_get nodes this state parent i

theorem getElem?_snoc {α : Type} (l : List α) (x : α) (j : Nat) (n : α)
    (h : (l ++ [x])[j]? = some n) : l[j]? = some n ∨ (j = l.length ∧ n = x) := by
  by_cases hj : j < l.length
  · left
    rw [List.getElem?_append_left hj] at h
    exact h
  · right
    have hge : l.length ≤ j := Nat.le_of_not_lt hj
    rw [List.getElem?_append_right hge] at h
    by_cases h0 : j - l.length = 0
    · rw [h0] at h
      simp at h
      exact ⟨by omega, h.symm⟩
    · obtain ⟨k, hk⟩ := Nat.exists_eq_succ_of_ne_zero h0
      rw [hk] at h
      simp at h

theorem getElem?_snoc_left {α : Type} (l : List α) (x : α) (j : Nat) (n : α)
    (h : l[j]? = some n) : (l ++ [x])[j]? = some n := by
  have hj : j < l.length := (List.getElem?_eq_some.1 h).1
  rw [List.getElem?_append_left hj]
  exact h

theorem getElem?_snoc_last {α : Type} (l : List α) (x : α) :
    (l ++ [x])[l.length]? = some x := by
  simp

theorem nearestLoop_inv {T D : Type} [LinearOrderedRing D] (dist : T → T → D) (state : T)
    (hnn : ∀ a b, 0 ≤ dist a b) :
    ∀ (rest pre : List (Node T)) (bd : D) (best : Option Nat), ScanInv dist state pre bd best →
      ∃ bd' best', nearestLoop (some dist) state rest pre.length bd best = .ok (bd', best') ∧
        ScanInv dist state (pre ++ rest) bd' best' := by
  intro rest
  induction rest with
  | nil =>
    intro pre bd best h
    exact ⟨bd, best, rfl, by simpa using h⟩
  | cons x xs ih =>
    intro pre bd best h
    have hlen : (pre ++ [x]).length = pre.length + 1 := by simp
    have happ : pre ++ [x] ++ xs = pre ++ x :: xs := by simp
    unfold nearestLoop
    simp only
    by_cases hc : bd < 0 ∨ dist x._state state < bd
    · rw [if_pos hc]
      have hinv : ScanInv dist state (pre ++ [x]) (dist x._state state) (some pre.length) := by
        unfold ScanInv at h ⊢
        right
        refine ⟨pre.length, x, rfl, getElem?_snoc_last pre x, rfl, ?_, ?_⟩
        · intro j n hj
          rcases getElem?_snoc pre x j n hj with hj | ⟨_, hn⟩
          · rcases h with ⟨hpre, _, _⟩ | ⟨b, bn, _, _, hbd, hmin, _⟩
            · subst hpre
              simp at hj
            · have hlt : dist x._state state < bd := by
                rcases hc with hc | hc
                · exact absurd hc (not_lt.2 (hbd ▸ hnn _ _))
                · exact hc
              exact le_trans (le_of_lt hlt) (hmin j n hj)
          · subst hn
            exact le_refl _
        · intro j n hj heq
          rcases getElem?_snoc pre x j n hj with hj | ⟨hjl, _⟩
          · rcases h with ⟨hpre, _, _⟩ | ⟨b, bn, _, _, hbd, hmin, _⟩
            · subst hpre
              simp at hj
            · have hlt : dist x._state state < bd := by
                rcases hc with hc | hc
                · exact absurd hc (not_lt.2 (hbd ▸ hnn _ _))
                · exact hc
              have := hmin j n hj
              rw [heq] at this
              exact absurd hlt (not_lt.2 this)
          · exact le_of_eq hjl.symm
      obtain ⟨bd', best', hrun, hres⟩ := ih (pre ++ [x]) _ _ hinv
      rw [hlen, happ] at *
      exact ⟨bd', best', hrun, hres⟩
    · rw [if_neg hc]
      have hc1 : ¬ bd < 0 := fun h1 => hc (Or.inl h1)
      have hc2 : bd ≤ dist x._state state := not_lt.1 (fun h2 => hc (Or.inr h2))
      have hinv : ScanInv dist state (pre ++ [x]) bd best := by
        unfold ScanInv at h ⊢
        rcases h with ⟨_, _, hneg⟩ | ⟨b, bn, hb, hbn, hbd, hmin, hfirst⟩
        · exact absurd hneg hc1
        · right
          refine ⟨b, bn, hb, getElem?_snoc_left pre x b bn hbn, hbd, ?_, ?_⟩
          · intro j n hj
            rcases getElem?_snoc pre x j n hj with hj | ⟨_, hn⟩
            · exact hmin j n hj
            · subst hn
              exact hc2
          · intro j n hj heq
            rcases getElem?_snoc pre x j n hj with hj | ⟨hjl, _⟩
            · exact hfirst j n hj heq
            · have : b < pre.length := (List.getElem?_eq_some.1 hbn).1
              omega
      obtain ⟨bd', best', hrun, hres⟩ := ih (pre ++ [x]) _ _ hinv
      rw [hlen, happ] at *
      exact ⟨bd', best', hrun, hres⟩

theorem nearestLoop_range {T D : Type} [LinearOrderedRing D] (dc : Option (T → T → D))
    (state : T) :
    ∀ (rest : List (Node T)) (i : Nat) (bd : D) (best : Option Nat) (bd' : D)
      (best' : Option Nat), nearestLoop dc state rest i bd best = .ok (bd', best') →
      best' = best ∨ ∃ b, best' = some b ∧ i ≤ b ∧ b < i + rest.length := by
  intro rest
  induction rest with
  | nil =>
    intro i bd best bd' best' h
    simp only [nearestLoop, Except.ok.injEq, Prod.mk.injEq] at h
    exact Or.inl h.2.symm
  | cons x xs ih =>
    intro i bd best bd' best' h
    unfold nearestLoop at h
    cases dc with
    | none => simp at h
    | some f =>
      simp only at h
      split at h
      · rcases ih _ _ _ _ _ h with h1 | ⟨b, hb, h1, h2⟩
        · exact Or.inr ⟨i, h1, le_refl _, by simp⟩
        · exact Or.inr ⟨b, hb, by omega, by simp only [List.length_cons]; omega⟩
      · rcases ih _ _ _ _ _ h with h1 | ⟨b, hb, h1, h2⟩
        · exact Or.inl h1
        · exact Or.inr ⟨b, hb, by omega, by simp only [List.length_cons]; omega⟩

theorem nearestLoop_ok {T D : Type} [LinearOrderedRing D] (f : T → T → D) (state : T) :
    ∀ (rest : List (Node T)) (i : Nat) (bd : D) (best : Option Nat),
      ∃ bd' best', nearestLoop (some f) state rest i bd best = .ok (bd', best') := by
  intro rest
  induction rest with
  | nil => intro i bd best; exact ⟨bd, best, rfl⟩
  | cons x xs ih =>
    intro i bd best
    unfold nearestLoop
    simp only
    split
    · exact ih _ _ _
    · exact ih _ _ _

theorem nearest_lt {T G D : Type} [LinearOrderedRing D] (t : Tree T G D) (state : T) (s : Nat)
    (d : D) (h : t.nearest state = .ok (some s, d)) : s < t._nodes.length := by
  unfold Tree.nearest at h
  split at h
  · simp at h
  · rename_i bd best heq
    simp only [Except.ok.injEq, Prod.mk.injEq] at h
    rcases nearestLoop_range _ _ _ _ _ _ _ _ heq with h1 | ⟨b, hb, _, h2⟩
    · rw [h1] at h
      simp at h
    · rw [hb] at h
      have : b = s := by simpa using h.1
      omega

theorem nearest_nonempty {T G D : Type} [LinearOrderedRing D] (t : Tree T G D) (state : T)
    (dist : T → T → D) (hd : t.distanceCalculator = some dist) (hne : t._nodes ≠ []) :
    ∃ s d, t.nearest state = .ok (some s, d) ∧ s < t._nodes.length := by
  obtain ⟨x, xs, hx⟩ := List.exists_cons_of_ne_nil hne
  obtain ⟨bd', best', hrun⟩ := nearestLoop_ok dist state xs 1 (dist x._state state) (some 0)
  have hfull : nearestLoop t.distanceCalculator state t._nodes 0 (-1) none = .ok (bd', best') := by
    rw [hd, hx]
    unfold nearestLoop
    simp only
    rw [if_pos (Or.inl (by simp))]
    exact hrun
  have hbest : ∃ b, best' = some b := by
    rcases nearestLoop_range _ _ _ _ _ _ _ _ hrun with h1 | ⟨b, hb, _, _⟩
    · exact ⟨0, h1⟩
    · exact ⟨b, hb⟩
  obtain ⟨b, hb⟩ := hbest
  have hn : t.nearest state = .ok (some b, bd') := by
    unfold Tree.nearest
    rw [hfull, hb]
  exact ⟨b, bd', hn, nearest_lt t state b bd' hn⟩

/-- What a call of `extend` that returns normally has done: nothing (null is
returned), or one node was appended from a source whose transition is valid. -/
theorem extend_cases {T G D : Type} [LinearOrderedRing D] (t t' : Tree T G D) (target : T)
    (source r : Option Nat) (h : t.extend target source = .ok (r, t')) :
    (r = none ∧ t' = t) ∨
    ∃ (s : Nat) (sn : Node T) (gen : T → T → T) (valid : T → T → Bool),
      (source = some s ∨ (source = none ∧ ∃ d, t.nearest target = .ok (some s, d))) ∧
      t._nodes[s]? = some sn ∧ t.intermediateStateGenerator = some gen ∧
      t.transitionValidator = some valid ∧
      valid sn._state (gen sn._state target) = true ∧
      r = some t._nodes.length ∧
      t' = { t with _nodes :=
        (Node.new t._nodes t._nodes.length (gen sn._state target) (some s)).1 ++
          [⟨gen sn._state target, [], some s⟩] } := by
  unfold Tree.extend at h
  simp only at h
  split at h
  · simp at h
  · simp only [Except.ok.injEq, Prod.mk.injEq] at h
    exact Or.inl ⟨h.1.symm, h.2.symm⟩
  · rename_i s hfound
    have hsrc : source = some s ∨ (source = none ∧ ∃ d, t.nearest target = .ok (some s, d)) := by
      split at hfound
      · left
        simp only [Except.ok.injEq] at hfound
        rw [hfound]
      · right
        refine ⟨rfl, ?_⟩
        split at hfound
        · simp at hfound
        · rename_i best d hn
          simp only [Except.ok.injEq] at hfound
          rw [hfound] at hn
          exact ⟨d, hn⟩
    unfold deref at h
    simp only at h
    split at h
    · simp at h
    · rename_i sn hs
      split at hs
      · simp at hs
      · rename_i sn' hs'
        simp only [Except.ok.injEq] at hs
        subst hs
        cases hg : t.intermediateStateGenerator with
        | none => simp [hg, bound] at h
        | some gen =>
          cases hv : t.transitionValidator with
          | none => simp [hg, hv, bound] at h
          | some valid =>
            simp only [hg, hv, bound] at h
            split at h
            · simp only [Except.ok.injEq, Prod.mk.injEq] at h
              exact Or.inl ⟨h.1.symm, h.2.symm⟩
            · rename_i hval
              simp only [Except.ok.injEq, Prod.mk.injEq] at h
              right
              refine ⟨s, sn', gen, valid, hsrc, hs', rfl, rfl, ?_, h.1.symm, ?_⟩
              · simpa using hval
              · rw [← h.2, Node.new_snd]

/-- The value of `extend` once the source node is known and the two callbacks
it uses are bound. -/
theorem extend_eval {T G D : Type} [LinearOrderedRing D] (t : Tree T G D) (target : T)
    (source : Option Nat) (s : Nat) (sn : Node T) (gen : T → T → T) (valid : T → T → Bool)
    (hsrc : source = some s ∨ (source = none ∧ ∃ d, t.nearest target = .ok (some s, d)))
    (hs : t._nodes[s]? = some sn)
    (hgen : t.intermediateStateGenerator = some gen)
    (hvalid : t.transitionValidator = some valid) :
    t.extend target source =
      if valid sn._state (gen sn._state target) = true then
        .ok (some t._nodes.length, { t with _nodes :=
          (Node.new t._nodes t._nodes.length (gen sn._state target) (some s)).1 ++
            [⟨gen sn._state target, [], some s⟩] })
      else .ok (none, t) := by
  have hfound : (match source with
      | some s => (Except.ok (some s) : Except Fault (Option Nat))
      | none =>
        match t.nearest target with
        | .error e => .error e
        | .ok (best, _) => .ok best) = .ok (some s) := by
    rcases hsrc with h | ⟨h, d, hd⟩
    · rw [h]
    · rw [h]
      simp only [hd]
  unfold Tree.extend
  simp only [hfound, deref, hs, hgen, hvalid, bound, Node.new_snd]
  cases hv : valid sn._state (gen sn._state target) <;> simp

theorem links_get {T : Type} (l l' : List (Node T)) (h : l'.map Node.link = l.map Node.link)
    (i : Nat) : (l'[i]?).map Node.link = (l[i]?).map Node.link := by
  have := congrArg (fun m => m[i]?) h
  simpa only [List.getElem?_map] using this

/-- C2: when the transition from the source `s` (the given source, or
`nearest(target)` when the source is null) to `m = intermediateStateGenerator(s.state,
target)` is valid, `extend` returns a new node with state `m` and parent `s`; the
node is the last of `_nodes`, so `lastNode()` returns it and the count grows by
one; the earlier nodes keep their state, parent and order. -/
theorem extend_success {T G D : Type} [LinearOrderedRing D] (t : Tree T G D) (target : T)
    (source : Option Nat) (s : Nat) (sn : Node T) (gen : T → T → T) (valid : T → T → Bool)
    (hsrc : source = some s ∨ (source = none ∧ ∃ d, t.nearest target = .ok (some s, d)))
    (hs : t._nodes[s]? = some sn)
    (hgen : t.intermediateStateGenerator = some gen)
    (hvalid : t.transitionValidator = some valid)
    (hok : valid sn._state (gen sn._state target) = true) :
    ∃ t', t.extend target source = .ok (some t._nodes.length, t') ∧
      t'._nodes[t._nodes.length]? = some ⟨gen sn._state target, [], some s⟩ ∧
      t'.lastNode = some t._nodes.length ∧
      t'._nodes.length = t._nodes.length + 1 ∧
      t'._nodes.map Node.link = t._nodes.map Node.link ++ [(gen sn._state target, some s)] := by
  have heval := extend_eval t target source s sn gen valid hsrc hs hgen hvalid
  rw [if_pos hok] at heval
  refine ⟨_, heval, ?_, ?_, ?_, ?_⟩
  · have hl := Node.new_length t._nodes t._nodes.length (gen sn._state target) (some s)
    have hlast := getElem?_snoc_last
      (Node.new t._nodes t._nodes.length (gen sn._state target) (some s)).1
      (⟨gen sn._state target, [], some s⟩ : Node T)
    rw [hl] at hlast
    exact hlast
  · simp [Tree.lastNode, Node.new_length]
  · simp [Node.new_length]
  · simp [Node.new_links, Node.link]

theorem extend_success_witness :
    ∃ t', (lineTree [⟨3, [], none⟩] 5).extend 20 none = .ok (some 1, t') ∧
      t'._nodes[1]? = some ⟨4, [], some 0⟩ ∧
      t'.lastNode = some 1 ∧
      t'._nodes.length = 2 ∧
      t'._nodes.map Node.link = [(3, none), (4, some 0)] :=
  extend_success (lineTree [⟨3, [], none⟩] 5) 20 none 0 ⟨3, [], none⟩ lineStep lineValid
    (Or.inr ⟨rfl, 17, by decide⟩) rfl rfl rfl (by decide)

/-- C3: on a non-empty tree, with a source that is null or a node of the tree,
`extend` returns null exactly when `transitionValidator` rejects the transition
from the source state to the intermediate state, and then the tree is the very
same tree, so every later `extend` or `grow` behaves as if the call had not been
made. -/
theorem extend_failure {T G D : Type} [LinearOrderedRing D] (t : Tree T G D) (target : T)
    (source : Option Nat) (dist : T → T → D) (gen : T → T → T) (valid : T → T → Bool)
    (hne : t._nodes ≠ [])
    (hsource : ∀ s, source = some s → s < t._nodes.length)
    (hdist : t.distanceCalculator = some dist)
    (hgen : t.intermediateStateGenerator = some gen)
    (hvalid : t.transitionValidator = some valid) :
    ∃ (s : Nat) (sn : Node T) (r : Option Nat) (t' : Tree T G D),
      (source = some s ∨ (source = none ∧ ∃ d, t.nearest target = .ok (some s, d))) ∧
      t._nodes[s]? = some sn ∧
      t.extend target source = .ok (r, t') ∧
      (r = none ↔ valid sn._state (gen sn._state target) = false) ∧
      (r = none → t' = t ∧
        (∀ target2 source2, t'.extend target2 source2 = t.extend target2 source2) ∧
        (∀ g, t'.grow g = t.grow g)) := by
  have hres : ∃ s, (source = some s ∨ (source = none ∧ ∃ d, t.nearest target = .ok (some s, d)))
      ∧ s < t._nodes.length := by
    cases source with
    | some s => exact ⟨s, Or.inl rfl, hsource s rfl⟩
    | none =>
      obtain ⟨s, d, hn, hlt⟩ := nearest_nonempty t target dist hdist hne
      exact ⟨s, Or.inr ⟨rfl, d, hn⟩, hlt⟩
  obtain ⟨s, hsrc, hlt⟩ := hres
  have hs : t._nodes[s]? = some (t._nodes[s]) := List.getElem?_eq_getElem hlt
  have heval := extend_eval t target source s _ gen valid hsrc hs hgen hvalid
  cases hv : valid (t._nodes[s])._state (gen (t._nodes[s])._state target) with
  | false =>
    rw [hv, if_neg (by simp)] at heval
    exact ⟨s, _, none, t, hsrc, hs, heval, by simp [hv],
      fun _ => ⟨rfl, fun _ _ => rfl, fun _ => rfl⟩⟩
  | true =>
    rw [hv, if_pos rfl] at heval
    exact ⟨s, _, _, _, hsrc, hs, heval, by simp [hv], fun h => by simp at h⟩

theorem extend_failure_witness :
    ∃ (s : Nat) (sn : Node Int) (r : Option Nat) (t' : Tree Int (List Int) Int),
      ((none : Option Nat) = some s ∨ ((none : Option Nat) = none ∧
        ∃ d, (lineTree [⟨6, [], none⟩] 5).nearest 20 = .ok (some s, d))) ∧
      (lineTree [⟨6, [], none⟩] 5)._nodes[s]? = some sn ∧
      (lineTree [⟨6, [], none⟩] 5).extend 20 none = .ok (r, t') ∧
      (r = none ↔ lineValid sn._state (lineStep sn._state 20) = false) ∧
      (r = none → t' = lineTree [⟨6, [], none⟩] 5 ∧
        (∀ target2 source2, t'.extend target2 source2 =
          (lineTree [⟨6, [], none⟩] 5).extend target2 source2) ∧
        (∀ g, t'.grow g = (lineTree [⟨6, [], none⟩] 5).grow g)) :=
  extend_failure (lineTree [⟨6, [], none⟩] 5) 20 none lineDist lineStep lineValid
    (by simp [lineTree]) (by simp) rfl rfl rfl

/-- C4: on a non-empty tree and with non-negative distances, `nearest` returns a
node whose distance to the query is at most that of every node, reports that
distance, and returns the earliest such node in insertion order. -/
theorem nearest_minimal {T G D : Type} [LinearOrderedRing D] (t : Tree T G D) (state : T)
    (dist : T → T → D) (hdist : t.distanceCalculator = some dist) (hne : t._nodes ≠ [])
    (hnn : ∀ a b, 0 ≤ dist a b) :
    ∃ (b : Nat) (bn : Node T), t.nearest state = .ok (some b, dist bn._state state) ∧
      t._nodes[b]? = some bn ∧
      (∀ (i : Nat) (n : Node T), t._nodes[i]? = some n →
        dist bn._state state ≤ dist n._state state) ∧
      (∀ (i : Nat) (n : Node T), t._nodes[i]? = some n →
        dist n._state state = dist bn._state state → b ≤ i) := by
  have hinit : ScanInv dist state ([] : List (Node T)) (-1) none :=
    Or.inl ⟨rfl, rfl, by simp⟩
  obtain ⟨bd', best', hrun, hinv⟩ := nearestLoop_inv dist state hnn t._nodes [] (-1) none hinit
  simp only [List.length_nil, List.nil_append] at hrun hinv
  rcases hinv with ⟨hnil, _, _⟩ | ⟨b, bn, hb, hbn, hbd, hmin, hfirst⟩
  · exact absurd hnil hne
  · refine ⟨b, bn, ?_, hbn, ?_, ?_⟩
    · unfold Tree.nearest
      rw [hdist, hrun, hb, hbd]
    · intro i n hi
      rw [← hbd]
      exact hmin i n hi
    · intro i n hi heq
      rw [← hbd] at heq
      exact hfirst i n hi heq

theorem nearest_minimal_witness :
    ∃ (b : Nat) (bn : Node Int),
      (lineTree [⟨3, [], none⟩, ⟨4, [], some 0⟩, ⟨6, [], some 1⟩] 5).nearest 5 =
        .ok (some b, lineDist bn._state 5) ∧
      (lineTree [⟨3, [], none⟩, ⟨4, [], some 0⟩, ⟨6, [], some 1⟩] 5)._nodes[b]? = some bn ∧
      (∀ (i : Nat) (n : Node Int),
        (lineTree [⟨3, [], none⟩, ⟨4, [], some 0⟩, ⟨6, [], some 1⟩] 5)._nodes[i]? = some n →
        lineDist bn._state 5 ≤ lineDist n._state 5) ∧
      (∀ (i : Nat) (n : Node Int),
        (lineTree [⟨3, [], none⟩, ⟨4, [], some 0⟩, ⟨6, [], some 1⟩] 5)._nodes[i]? = some n →
        lineDist n._state 5 = lineDist bn._state 5 → b ≤ i) :=
  nearest_minimal (lineTree [⟨3, [], none⟩, ⟨4, [], some 0⟩, ⟨6, [], some 1⟩] 5) 5 lineDist rfl
    (by simp [lineTree]) (fun a b => abs_nonneg (a - b))

/-- C6: a newly constructed tree has no nodes; after `setup(start)` the nodes are
exactly the root, with state `start` and no parent, whatever the tree held
before; after `reset()` there are no nodes and `rootNode()` and `lastNode()`
return null. -/
theorem setup_reset_machine {T G D : Type} :
    (Tree.new T G D)._nodes = [] ∧
    (∀ (t : Tree T G D) (start : T),
      (t.setup start)._nodes = [⟨start, [], none⟩] ∧
      (t.setup start).rootNode = some 0 ∧ (t.setup start).lastNode = some 0) ∧
    (∀ (t : Tree T G D),
      t.reset._nodes = [] ∧ t.reset.rootNode = none ∧ t.reset.lastNode = none) := by
  refine ⟨rfl, ?_, ?_⟩
  · intro t start
    exact ⟨rfl, rfl, rfl⟩
  · intro t
    exact ⟨rfl, rfl, rfl⟩

theorem links_snoc_cases {T : Type} (l l' : List (Node T)) (e : T × Option Nat)
    (h : l'.map Node.link = l.map Node.link ++ [e]) (i : Nat) (n' : Node T)
    (hi : l'[i]? = some n') :
    (∃ n, l[i]? = some n ∧ n.link = n'.link) ∨ (i = l.length ∧ n'.link = e) := by
  have hget := congrArg (fun m => m[i]?) h
  simp only [List.getElem?_map, hi, Option.map_some'] at hget
  rcases getElem?_snoc _ _ _ _ hget.symm with h1 | ⟨h1, h2⟩
  · left
    rw [List.getElem?_map] at h1
    cases hl : l[i]? with
    | none => rw [hl] at h1; simp at h1
    | some n =>
      rw [hl] at h1
      exact ⟨n, rfl, by simpa using h1⟩
  · right
    exact ⟨by simpa using h1, h2⟩

theorem links_snoc_old {T : Type} (l l' : List (Node T)) (e : T × Option Nat)
    (h : l'.map Node.link = l.map Node.link ++ [e]) (i : Nat) (n : Node T)
    (hi : l[i]? = some n) : ∃ n', l'[i]? = some n' ∧ n'.link = n.link := by
  have hget := congrArg (fun m => m[i]?) h
  have hold : (l.map Node.link)[i]? = some n.link := by
    rw [List.getElem?_map, hi]
    rfl
  simp only [List.getElem?_map] at hget
  rw [getElem?_snoc_left _ _ _ _ hold] at hget
  cases hl : l'[i]? with
  | none => rw [hl] at hget; simp at hget
  | some n' =>
    rw [hl] at hget
    exact ⟨n', rfl, by simpa using hget⟩

theorem links_snoc_length {T : Type} (l l' : List (Node T)) (e : T × Option Nat)
    (h : l'.map Node.link = l.map Node.link ++ [e]) : l'.length = l.length + 1 := by
  have := congrArg List.length h
  simpa using this

/-- A call of `extend` that returns normally either changes nothing or appends
one node whose link is the validated step from its source; the callbacks stay. -/
theorem extend_links {T G D : Type} [LinearOrderedRing D] (t t' : Tree T G D) (target : T)
    (source r : Option Nat) (h : t.extend target source = .ok (r, t')) :
    (r = none ∧ t' = t) ∨
    ∃ (s : Nat) (sn : Node T) (gen : T → T → T) (valid : T → T → Bool),
      (source = some s ∨ (source = none ∧ ∃ d, t.nearest target = .ok (some s, d))) ∧
      t._nodes[s]? = some sn ∧ t.intermediateStateGenerator = some gen ∧
      t.transitionValidator = some valid ∧
      valid sn._state (gen sn._state target) = true ∧
      r = some t._nodes.length ∧
      t'._nodes.map Node.link = t._nodes.map Node.link ++ [(gen sn._state target, some s)] ∧
      t'.transitionValidator = t.transitionValidator ∧
      t'.randomStateGenerator = t.randomStateGenerator ∧
      t'.distanceCalculator = t.distanceCalculator ∧
      t'.goalProximityChecker = t.goalProximityChecker ∧
      t'.intermediateStateGenerator = t.intermediateStateGenerator ∧
      t'._maxIterations = t._maxIterations := by
  rcases extend_cases t t' target source r h with h1 | ⟨s, sn, gen, valid, h1, h2, h3, h4, h5, h6, h7⟩
  · exact Or.inl h1
  · right
    refine ⟨s, sn, gen, valid, h1, h2, h3, h4, h5, h6, ?_, ?_⟩
    · rw [h7]
      simp [Node.new_links, Node.link]
    · rw [h7]
      exact ⟨rfl, rfl, rfl, rfl, rfl, rfl⟩

/-- A call of `grow` that returns normally has drawn one random state and
called `extend` toward it with no source. -/
theorem grow_cases {T G D : Type} [LinearOrderedRing D] (t t' : Tree T G D) (g g' : G)
    (r : Option Nat) (h : t.grow g = .ok (r, t', g')) :
    ∃ rnd : G → T × G, t.randomStateGenerator = some rnd ∧ g' = (rnd g).2 ∧
      t.extend (rnd g).1 none = .ok (r, t') := by
  unfold Tree.grow at h
  cases hr : t.randomStateGenerator with
  | none => simp [hr, bound] at h
  | some rnd =>
    simp only [hr, bound] at h
    split at h
    · simp at h
    · rename_i n t1 hext
      simp only [Except.ok.injEq, Prod.mk.injEq] at h
      refine ⟨rnd, rfl, h.2.2.symm, ?_⟩
      rw [hext, h.1, h.2.1]

theorem edges_snoc {T : Type} (P : T → T → Prop) (l l' : List (Node T)) (s : Nat)
    (sn : Node T) (m : T) (hl : EdgesOK P l) (hs : l[s]? = some sn) (hP : P sn._state m)
    (h : l'.map Node.link = l.map Node.link ++ [(m, some s)]) : EdgesOK P l' := by
  obtain ⟨⟨root, hroot, hrp⟩, hedges⟩ := hl
  constructor
  · obtain ⟨root', hr', hlink⟩ := links_snoc_old l l' _ h 0 root hroot
    refine ⟨root', hr', ?_⟩
    have := congrArg Prod.snd hlink
    simp only [Node.link] at this
    rw [this, hrp]
  · intro i n' hi hpos
    rcases links_snoc_cases l l' _ h i n' hi with ⟨n, hn, hlink⟩ | ⟨hlen, hlink⟩
    · obtain ⟨p, pn, hp, hlt, hpn, hPp⟩ := hedges i n hn hpos
      obtain ⟨pn', hpn', hplink⟩ := links_snoc_old l l' _ h p pn hpn
      have e1 : n._state = n'._state := congrArg Prod.fst hlink
      have e2 : n._parent = n'._parent := congrArg Prod.snd hlink
      have e3 : pn'._state = pn._state := congrArg Prod.fst hplink
      refine ⟨p, pn', by rw [← e2, hp], hlt, hpn', ?_⟩
      rw [e3, ← e1]
      exact hPp
    · obtain ⟨sn', hsn', hslink⟩ := links_snoc_old l l' _ h s sn hs
      have e1 : n'._state = m := congrArg Prod.fst hlink
      have e2 : n'._parent = some s := congrArg Prod.snd hlink
      have e3 : sn'._state = sn._state := congrArg Prod.fst hslink
      have hslt : s < l.length := (List.getElem?_eq_some.1 hs).1
      refine ⟨s, sn', e2, by omega, hsn', ?_⟩
      rw [e3, e1]
      exact hP

/-- Every edge of a reachable tree satisfies any property that holds of all
validated steps of the intermediate-state generator. -/
theorem reachable_edges {T G D : Type} [LinearOrderedRing D] (P : T → T → Prop)
    (t : Tree T G D) (h : Reachable t)
    (hP : ∀ gen valid, t.intermediateStateGenerator = some gen →
      t.transitionValidator = some valid → ∀ a b, valid a (gen a b) = true → P a (gen a b)) :
    EdgesOK P t._nodes := by
  induction h with
  | setup t start =>
    refine ⟨⟨⟨start, [], none⟩, rfl, rfl⟩, ?_⟩
    intro i n hi hpos
    obtain ⟨k, hk⟩ := Nat.exists_eq_succ_of_ne_zero (Nat.pos_iff_ne_zero.1 hpos)
    subst hk
    simp [Tree.setup, Tree.reset, Node.new] at hi
  | extend t t' target source r _ _ hext ih =>
    rcases extend_links t t' target source r hext with ⟨_, h2⟩ |
      ⟨s, sn, gen, valid, _, hs, hgen, hvalid, hok, _, hlinks, htv, _, _, _, hig, _⟩
    · rw [h2] at hP ⊢
      exact ih hP
    · rw [htv, hig] at hP
      exact edges_snoc P _ _ s sn _ (ih hP) hs (hP gen valid hgen hvalid _ _ hok) hlinks
  | grow t t' g g' r _ hgrow ih =>
    obtain ⟨rnd, _, _, hext⟩ := grow_cases t t' g g' r hgrow
    rcases extend_links t t' _ none r hext with ⟨_, h2⟩ |
      ⟨s, sn, gen, valid, _, hs, hgen, hvalid, hok, _, hlinks, htv, _, _, _, hig, _⟩
    · rw [h2] at hP ⊢
      exact ih hP
    · rw [htv, hig] at hP
      exact edges_snoc P _ _ s sn _ (ih hP) hs (hP gen valid hgen hvalid _ _ hok) hlinks

theorem lineTwo_reachable : Reachable lineTwo :=
  Reachable.extend ((lineTree [] 5).setup 3) lineTwo 20 none (some 1)
    (Reachable.setup (lineTree [] 5) 3) (by simp) rfl

theorem lineStep_bound (a b : Int) : lineDist a (lineStep a b) ≤ 1 := by
  unfold lineDist lineStep
  split_ifs <;> simp

/-- C7: in a tree reachable from `setup`, the first node is the only one without
a parent, and every other node has a parent at an earlier position of the tree
for which `transitionValidator(parent state, node state)` is true. -/
theorem validated_edges {T G D : Type} [LinearOrderedRing D] (t : Tree T G D)
    (h : Reachable t) :
    (∃ root : Node T, t._nodes[0]? = some root ∧ root._parent = none) ∧
    ∀ (i : Nat) (n : Node T), t._nodes[i]? = some n → 0 < i →
      ∃ (p : Nat) (pn : Node T) (valid : T → T → Bool), n._parent = some p ∧ p < i ∧
        t._nodes[p]? = some pn ∧ t.transitionValidator = some valid ∧
        valid pn._state n._state = true := by
  have hedges := reachable_edges
    (fun a m => ∃ valid, t.transitionValidator = some valid ∧ valid a m = true) t h
    (fun gen valid _ hv a b hok => ⟨valid, hv, hok⟩)
  refine ⟨hedges.1, ?_⟩
  intro i n hi hpos
  obtain ⟨p, pn, hp, hlt, hpn, valid, hv, hok⟩ := hedges.2 i n hi hpos
  exact ⟨p, pn, valid, hp, hlt, hpn, hv, hok⟩

theorem validated_edges_witness :
    (∃ root : Node Int, lineTwo._nodes[0]? = some root ∧ root._parent = none) ∧
    ∀ (i : Nat) (n : Node Int), lineTwo._nodes[i]? = some n → 0 < i →
      ∃ (p : Nat) (pn : Node Int) (valid : Int → Int → Bool), n._parent = some p ∧ p < i ∧
        lineTwo._nodes[p]? = some pn ∧ lineTwo.transitionValidator = some valid ∧
        valid pn._state n._state = true :=
  validated_edges lineTwo lineTwo_reachable

/-- C10: for `s > 0`, if every state produced by `intermediateStateGenerator(a, b)`
is within distance `s` of `a`, then in a tree reachable from `setup` every node
but the root is within distance `s` of its parent (`distanceCalculator` is
applied to the parent state first). -/
theorem step_bound {T G D : Type} [LinearOrderedRing D] (t : Tree T G D) (h : Reachable t)
    (s : D) (_hs : 0 < s) (dist : T → T → D) (gen : T → T → T)
    (_hdist : t.distanceCalculator = some dist)
    (hgen : t.intermediateStateGenerator = some gen)
    (hstep : ∀ a b, dist a (gen a b) ≤ s) :
    ∀ (i : Nat) (n : Node T), t._nodes[i]? = some n → 0 < i →
      ∃ (p : Nat) (pn : Node T), n._parent = some p ∧ t._nodes[p]? = some pn ∧
        dist pn._state n._state ≤ s := by
  have hedges := reachable_edges (fun a m => dist a m ≤ s) t h
    (fun gen' valid hg _ a b _ => by
      have : gen' = gen := by
        rw [hg] at hgen
        exact Option.some.inj hgen
      rw [this]
      exact hstep a b)
  intro i n hi hpos
  obtain ⟨p, pn, hp, _, hpn, hd⟩ := hedges.2 i n hi hpos
  exact ⟨p, pn, hp, hpn, hd⟩

theorem step_bound_witness :
    ∃ (p : Nat) (pn : Node Int), (some 0 : Option Nat) = some p ∧
      lineTwo._nodes[p]? = some pn ∧ lineDist pn._state 4 ≤ 1 :=
  step_bound lineTwo lineTwo_reachable 1 (by decide) lineDist lineStep rfl rfl lineStep_bound
    1 ⟨4, [], some 0⟩ rfl (by decide)

/-- The bound of `step_bound` for a distance measured from the new state back to
its source. -/
theorem step_bound_back {T G D : Type} [LinearOrderedRing D] (t : Tree T G D)
    (h : Reachable t) (s : D) (dist : T → T → D) (gen : T → T → T)
    (hgen : t.intermediateStateGenerator = some gen)
    (hstep : ∀ a b, dist (gen a b) a ≤ s) :
    ∀ (i : Nat) (n : Node T), t._nodes[i]? = some n → 0 < i →
      ∃ (p : Nat) (pn : Node T), n._parent = some p ∧ t._nodes[p]? = some pn ∧
        dist n._state pn._state ≤ s := by
  have hedges := reachable_edges (fun a m => dist m a ≤ s) t h
    (fun gen' valid hg _ a b _ => by
      have : gen' = gen := by
        rw [hg] at hgen
        exact Option.some.inj hgen
      rw [this]
      exact hstep a b)
  intro i n hi hpos
  obtain ⟨p, pn, hp, _, hpn, hd⟩ := hedges.2 i n hi hpos
  exact ⟨p, pn, hp, hpn, hd⟩

theorem ancestorAt_succ {T : Type} (nodes : List (Node T)) (k i p : Nat) (n : Node T)
    (hi : nodes[i]? = some n) (hp : n._parent = some p) :
    ancestorAt nodes (k + 1) i = ancestorAt nodes k p := by
  simp only [ancestorAt, hi, hp]

/-- The parent chain of a node of a well-linked list: the loop of `depth` counts
`d` links, the chain stays inside the list, ends at the root and strictly
descends. -/
theorem chain_of_edges {T : Type} (P : T → T → Prop) (nodes : List (Node T))
    (hl : EdgesOK P nodes) :
    ∀ (i : Nat) (n : Node T), nodes[i]? = some n →
      ∃ d, d ≤ i ∧
        (∀ fuel acc, d ≤ fuel → depthLoop nodes fuel n._parent acc = .ok (acc + d)) ∧
        (∀ k, k ≤ d → ∃ b, ancestorAt nodes k i = some b ∧ b ≤ i) ∧
        ancestorAt nodes d i = some 0 ∧
        (∀ j k, j < k → k ≤ d →
          ∃ a b, ancestorAt nodes j i = some a ∧ ancestorAt nodes k i = some b ∧ b < a) := by
  intro i
  induction i using Nat.strong_induction_on with
  | _ i ih =>
    intro n hi
    by_cases hpos : 0 < i
    · obtain ⟨p, pn, hp, hlt, hpn, _⟩ := hl.2 i n hi hpos
      obtain ⟨d, hdle, hloop, hin, hend, hdesc⟩ := ih p hlt pn hpn
      refine ⟨d + 1, by omega, ?_, ?_, ?_, ?_⟩
      · intro fuel acc hfuel
        obtain ⟨f, hf⟩ := Nat.exists_eq_succ_of_ne_zero (by omega : fuel ≠ 0)
        subst hf
        rw [hp]
        simp only [depthLoop, hpn]
        rw [hloop f (acc + 1) (by omega)]
        congr 1
        omega
      · intro k hk
        cases k with
        | zero => exact ⟨i, rfl, le_refl _⟩
        | succ k =>
          rw [ancestorAt_succ nodes k i p n hi hp]
          obtain ⟨b, hb, hble⟩ := hin k (by omega)
          exact ⟨b, hb, by omega⟩
      · rw [ancestorAt_succ nodes d i p n hi hp]
        exact hend
      · intro j k hjk hk
        cases k with
        | zero => omega
        | succ k =>
          rw [ancestorAt_succ nodes k i p n hi hp]
          cases j with
          | zero =>
            obtain ⟨b, hb, hble⟩ := hin k (by omega)
            exact ⟨i, b, rfl, hb, by omega⟩
          | succ j =>
            rw [ancestorAt_succ nodes j i p n hi hp]
            exact hdesc j k (by omega) (by omega)
    · have hi0 : i = 0 := by omega
      subst hi0
      obtain ⟨root, hroot, hrp⟩ := hl.1
      have hn : n = root := by
        rw [hi] at hroot
        exact Option.some.inj hroot
      subst hn
      refine ⟨0, le_refl _, ?_, ?_, rfl, ?_⟩
      · intro fuel acc _
        rw [hrp]
        cases fuel <;> rfl
      · intro k hk
        have hk0 : k = 0 := by omega
        subst hk0
        exact ⟨0, rfl, le_refl _⟩
      · intro j k hjk hk
        omega

/-- A run of the `depth` loop that ends normally gives the same count after a
node has been appended. -/
theorem depthLoop_snoc {T : Type} (l l' : List (Node T)) (e : T × Option Nat)
    (h : l'.map Node.link = l.map Node.link ++ [e]) :
    ∀ (fuel : Nat) (a : Option Nat) (acc d : Nat),
      depthLoop l fuel a acc = .ok d → depthLoop l' fuel a acc = .ok d := by
  intro fuel
  induction fuel with
  | zero =>
    intro a acc d hd
    cases a with
    | none => simpa [depthLoop] using hd
    | some a => simp [depthLoop] at hd
  | succ fuel ih =>
    intro a acc d hd
    cases a with
    | none => simpa [depthLoop] using hd
    | some a =>
      simp only [depthLoop] at hd ⊢
      cases ha : l[a]? with
      | none => simp [ha] at hd
      | some an =>
        obtain ⟨an', han', hlink⟩ := links_snoc_old l l' e h a an ha
        have e2 : an'._parent = an._parent := congrArg Prod.snd hlink
        simp only [ha] at hd
        simp only [han', e2]
        exact ih _ _ _ hd

theorem depth_snoc {T : Type} (l l' : List (Node T)) (e : T × Option Nat)
    (h : l'.map Node.link = l.map Node.link ++ [e]) (fuel i d : Nat)
    (hd : depth l fuel i = .ok d) : depth l' fuel i = .ok d := by
  unfold depth at hd ⊢
  cases hi : l[i]? with
  | none => simp [hi] at hd
  | some n =>
    obtain ⟨n', hn', hlink⟩ := links_snoc_old l l' e h i n hi
    have e2 : n'._parent = n._parent := congrArg Prod.snd hlink
    simp only [hi] at hd
    simp only [hn', e2]
    exact depthLoop_snoc l l' e h _ _ _ _ hd

/-- Starting the counter of the `depth` loop `c` higher raises the result by `c`. -/
theorem depthLoop_shift {T : Type} (nodes : List (Node T)) :
    ∀ (fuel : Nat) (a : Option Nat) (acc r c : Nat),
      depthLoop nodes fuel a acc = .ok r → depthLoop nodes fuel a (acc + c) = .ok (r + c) := by
  intro fuel
  induction fuel with
  | zero =>
    intro a acc r c hr
    cases a with
    | none =>
      simp only [depthLoop, Except.ok.injEq] at hr ⊢
      omega
    | some a => simp [depthLoop] at hr
  | succ fuel ih =>
    intro a acc r c hr
    cases a with
    | none =>
      simp only [depthLoop, Except.ok.injEq] at hr ⊢
      omega
    | some a =>
      simp only [depthLoop] at hr ⊢
      cases ha : nodes[a]? with
      | none => simp [ha] at hr
      | some an =>
        simp only [ha] at hr ⊢
        have := ih an._parent (acc + 1) r c hr
        rw [show acc + c + 1 = acc + 1 + c by omega]
        exact this

/-- C8: in a tree reachable from `setup`, `depth` of every node returns, the
parent chain of the node reaches the root (position 0, of depth 0) in exactly
that many steps through strictly earlier positions, so no node is met twice,
and a node made by `extend` from the source `s` has depth `depth(s) + 1`. -/
theorem parent_chain {T G D : Type} [LinearOrderedRing D] (t : Tree T G D)
    (h : Reachable t) :
    (∀ (i : Nat) (n : Node T), t._nodes[i]? = some n →
      ∃ d, d ≤ i ∧ (∀ fuel, d ≤ fuel → depth t._nodes fuel i = .ok d) ∧
        ancestorAt t._nodes d i = some 0 ∧
        (∀ j k, j < k → k ≤ d → ∃ a b, ancestorAt t._nodes j i = some a ∧
          ancestorAt t._nodes k i = some b ∧ b < a)) ∧
    (∀ fuel, depth t._nodes fuel 0 = .ok 0) ∧
    (∀ (target : T) (source : Option Nat) (n : Nat) (t' : Tree T G D),
      (∀ s, source = some s → s < t._nodes.length) →
      t.extend target source = .ok (some n, t') →
      ∃ s d, (source = some s ∨ (source = none ∧ ∃ x, t.nearest target = .ok (some s, x))) ∧
        (∃ nn : Node T, t'._nodes[n]? = some nn ∧ nn._parent = some s) ∧
        (∀ fuel, d ≤ fuel → depth t._nodes fuel s = .ok d) ∧
        (∀ fuel, d + 1 ≤ fuel → depth t'._nodes fuel n = .ok (d + 1))) := by
  have hedges := reachable_edges (fun _ _ => True) t h (fun _ _ _ _ _ _ _ => trivial)
  have hchain := chain_of_edges _ t._nodes hedges
  refine ⟨?_, ?_, ?_⟩
  · intro i n hi
    obtain ⟨d, hdle, hloop, _, hend, hdesc⟩ := hchain i n hi
    refine ⟨d, hdle, ?_, hend, hdesc⟩
    intro fuel hfuel
    unfold depth
    simp only [hi]
    rw [hloop fuel 0 hfuel, Nat.zero_add]
  · intro fuel
    obtain ⟨root, hroot, hrp⟩ := hedges.1
    unfold depth
    simp only [hroot, hrp]
    cases fuel <;> rfl
  · intro target source n t' hsource hext
    rcases extend_links t t' target source (some n) hext with ⟨h1, _⟩ |
      ⟨s, sn, gen, valid, hsrc, hs, _, _, _, hn, hlinks, _⟩
    · simp at h1
    · have hn' : n = t._nodes.length := Option.some.inj hn
      obtain ⟨d, _, hloop, _, _, _⟩ := hchain s sn hs
      have hds : ∀ fuel, d ≤ fuel → depth t._nodes fuel s = .ok d := by
        intro fuel hfuel
        unfold depth
        simp only [hs]
        rw [hloop fuel 0 hfuel, Nat.zero_add]
      have hlen := links_snoc_length _ _ _ hlinks
      have hlast : ∃ nn : Node T, t'._nodes[n]? = some nn := by
        have hlt : n < t'._nodes.length := by omega
        exact ⟨_, List.getElem?_eq_getElem hlt⟩
      obtain ⟨nn, hnn⟩ := hlast
      have hparent : nn._parent = some s := by
        rcases links_snoc_cases _ _ _ hlinks n nn hnn with ⟨m, hm, _⟩ | ⟨_, hlink⟩
        · have := (List.getElem?_eq_some.1 hm).1
          omega
        · exact congrArg Prod.snd hlink
      refine ⟨s, d, hsrc, ⟨nn, hnn, hparent⟩, hds, ?_⟩
      intro fuel hfuel
      obtain ⟨f, hf⟩ := Nat.exists_eq_succ_of_ne_zero (by omega : fuel ≠ 0)
      subst hf
      have hs' := depth_snoc _ _ _ hlinks f s d (hds f (by omega))
      unfold depth at hs' ⊢
      simp only [hnn, hparent, depthLoop]
      cases hsn' : t'._nodes[s]? with
      | none => simp [hsn'] at hs'
      | some sn' =>
        simp only [hsn'] at hs' ⊢
        have := depthLoop_shift t'._nodes f sn'._parent 0 d 1 hs'
        simpa using this

theorem parent_chain_witness :
    (∀ (i : Nat) (n : Node Int), lineTwo._nodes[i]? = some n →
      ∃ d, d ≤ i ∧ (∀ fuel, d ≤ fuel → depth lineTwo._nodes fuel i = .ok d) ∧
        ancestorAt lineTwo._nodes d i = some 0 ∧
        (∀ j k, j < k → k ≤ d → ∃ a b, ancestorAt lineTwo._nodes j i = some a ∧
          ancestorAt lineTwo._nodes k i = some b ∧ b < a)) ∧
    (∀ fuel, depth lineTwo._nodes fuel 0 = .ok 0) ∧
    (∀ (target : Int) (source : Option Nat) (n : Nat) (t' : Tree Int (List Int) Int),
      (∀ s, source = some s → s < lineTwo._nodes.length) →
      lineTwo.extend target source = .ok (some n, t') →
      ∃ s d, (source = some s ∨
          (source = none ∧ ∃ x, lineTwo.nearest target = .ok (some s, x))) ∧
        (∃ nn : Node Int, t'._nodes[n]? = some nn ∧ nn._parent = some s) ∧
        (∀ fuel, d ≤ fuel → depth lineTwo._nodes fuel s = .ok d) ∧
        (∀ fuel, d + 1 ≤ fuel → depth t'._nodes fuel n = .ok (d + 1))) :=
  parent_chain lineTwo lineTwo_reachable

theorem nearest_empty {T G D : Type} [LinearOrderedRing D] (t : Tree T G D) (state : T)
    (h : t._nodes = []) : t.nearest state = .ok (none, -1) := by
  unfold Tree.nearest
  rw [h]
  rfl

/-- With its callbacks bound, `extend` without a source always returns: null
and the same tree, or the last node of a tree with the same callbacks. -/
theorem extend_none_total {T G D : Type} [LinearOrderedRing D] (t : Tree T G D) (target : T)
    (dist : T → T → D) (gen : T → T → T) (valid : T → T → Bool)
    (hdist : t.distanceCalculator = some dist)
    (hgen : t.intermediateStateGenerator = some gen)
    (hvalid : t.transitionValidator = some valid) :
    ∃ (r : Option Nat) (t' : Tree T G D), t.extend target none = .ok (r, t') ∧
      (r = none → t' = t) ∧
      (∀ n, r = some n → t'.lastNode = some n ∧ ∃ nd : Node T, t'._nodes[n]? = some nd) ∧
      t'.transitionValidator = t.transitionValidator ∧
      t'.randomStateGenerator = t.randomStateGenerator ∧
      t'.distanceCalculator = t.distanceCalculator ∧
      t'.goalProximityChecker = t.goalProximityChecker ∧
      t'.intermediateStateGenerator = t.intermediateStateGenerator := by
  by_cases hne : t._nodes = []
  · refine ⟨none, t, ?_, fun _ => rfl, fun n hn => by simp at hn, rfl, rfl, rfl, rfl, rfl⟩
    unfold Tree.extend
    simp only [nearest_empty t target hne]
  · obtain ⟨s, d, hn, hlt⟩ := nearest_nonempty t target dist hdist hne
    have hs : t._nodes[s]? = some (t._nodes[s]) := List.getElem?_eq_getElem hlt
    have heval := extend_eval t target none s _ gen valid (Or.inr ⟨rfl, d, hn⟩) hs hgen hvalid
    have hex : ∃ (r : Option Nat) (t' : Tree T G D), t.extend target none = .ok (r, t') ∧
        (r = none → t' = t) := by
      by_cases hv : valid (t._nodes[s])._state (gen (t._nodes[s])._state target) = true
      · rw [if_pos hv] at heval
        exact ⟨_, _, heval, fun h => by simp at h⟩
      · rw [if_neg hv] at heval
        exact ⟨_, _, heval, fun _ => rfl⟩
    obtain ⟨r, t', hext, hnone⟩ := hex
    refine ⟨r, t', hext, hnone, ?_, ?_⟩
    · intro n hn
      rcases extend_links t t' target none r hext with ⟨h1, _⟩ |
        ⟨s, sn, _, _, _, _, _, _, _, hr, hlinks, _⟩
      · rw [h1] at hn
        simp at hn
      · have hlen := links_snoc_length _ _ _ hlinks
        rw [hr] at hn
        have hn' : t._nodes.length = n := Option.some.inj hn
        constructor
        · unfold Tree.lastNode
          have : t'._nodes ≠ [] := by
            intro h0
            rw [h0] at hlen
            simp at hlen
          simp [this, hlen, hn']
        · exact ⟨_, List.getElem?_eq_getElem (by omega)⟩
    · rcases extend_links t t' target none r hext with ⟨_, h2⟩ |
        ⟨_, _, _, _, _, _, _, _, _, _, _, h1, h2, h3, h4, h5, _⟩
      · rw [h2]
        exact ⟨rfl, rfl, rfl, rfl, rfl⟩
      · exact ⟨h1, h2, h3, h4, h5⟩

/-- With its callbacks bound, `grow` always returns and has drawn exactly one
random state. -/
theorem grow_total {T G D : Type} [LinearOrderedRing D] (t : Tree T G D) (g : G)
    (rnd : G → T × G) (dist : T → T → D) (gen : T → T → T) (valid : T → T → Bool)
    (hrnd : t.randomStateGenerator = some rnd)
    (hdist : t.distanceCalculator = some dist)
    (hgen : t.intermediateStateGenerator = some gen)
    (hvalid : t.transitionValidator = some valid) :
    ∃ (r : Option Nat) (t' : Tree T G D), t.grow g = .ok (r, t', (rnd g).2) ∧
      t.extend (rnd g).1 none = .ok (r, t') ∧
      (r = none → t' = t) ∧
      (∀ n, r = some n → t'.lastNode = some n ∧ ∃ nd : Node T, t'._nodes[n]? = some nd) ∧
      t'.transitionValidator = t.transitionValidator ∧
      t'.randomStateGenerator = t.randomStateGenerator ∧
      t'.distanceCalculator = t.distanceCalculator ∧
      t'.goalProximityChecker = t.goalProximityChecker ∧
      t'.intermediateStateGenerator = t.intermediateStateGenerator := by
  obtain ⟨r, t', hext, h1, h2, h3⟩ :=
    extend_none_total t (rnd g).1 dist gen valid hdist hgen hvalid
  refine ⟨r, t', ?_, hext, h1, h2, h3⟩
  unfold Tree.grow
  simp only [hrnd, bound, hext]

theorem hitAt_succ {T G D : Type} [LinearOrderedRing D] (k : Nat) (r0 r1 : Option Nat)
    (t t1 : Tree T G D) (g g1 : G) (h : t.grow g = .ok (r1, t1, g1)) :
    hitAt (k + 1) r0 t g = hitAt k r1 t1 g1 := by
  simp only [hitAt, growN, h]

theorem growN_succ {T G D : Type} [LinearOrderedRing D] (k : Nat) (r0 r1 : Option Nat)
    (t t1 : Tree T G D) (g g1 : G) (h : t.grow g = .ok (r1, t1, g1)) :
    growN (k + 1) r0 t g = growN k r1 t1 g1 := by
  simp only [growN, h]

/-- The loop of `run` against the sequence of `grow` calls: it performs `k`
calls, none of the first `k - 1` is at the goal, and it stops with `true` at
the first call at the goal or with `false` after all `N` calls. -/
theorem runLoop_spec {T G D : Type} [LinearOrderedRing D]
    (rnd : G → T × G) (dist : T → T → D) (gen : T → T → T) (valid : T → T → Bool)
    (goal : T → Bool) :
    ∀ (N : Nat) (t : Tree T G D) (g : G) (r0 : Option Nat),
      t.randomStateGenerator = some rnd → t.distanceCalculator = some dist →
      t.intermediateStateGenerator = some gen → t.transitionValidator = some valid →
      t.goalProximityChecker = some goal →
      ∃ (b : Bool) (k : Nat) (r : Option Nat) (t' : Tree T G D) (g' : G),
        runLoop N t g = .ok (b, t', g') ∧ k ≤ N ∧ growN k r0 t g = .ok (r, t', g') ∧
        (∀ j, 1 ≤ j → j < k → hitAt j r0 t g = false) ∧
        (b = true → 1 ≤ k ∧ hitAt k r0 t g = true ∧ t'.lastNode = r ∧ r ≠ none) ∧
        (b = false → k = N ∧ (1 ≤ k → hitAt k r0 t g = false)) := by
  intro N
  induction N with
  | zero =>
    intro t g r0 _ _ _ _ _
    refine ⟨false, 0, r0, t, g, rfl, le_refl _, rfl, ?_, ?_, ?_⟩
    · intro j h1 h2
      omega
    · intro h
      simp at h
    · intro _
      exact ⟨rfl, fun h => by omega⟩
  | succ N ih =>
    intro t g r0 hrnd hdist hgen hvalid hgoal
    obtain ⟨r1, t1, hgrow, _, _, hlast, c1, c2, c3, c4, c5⟩ :=
      grow_total t g rnd dist gen valid hrnd hdist hgen hvalid
    have hh0 : hitAt 0 r1 t1 (rnd g).2 = atGoal t1 r1 := rfl
    by_cases hat : atGoal t1 r1 = true
    · have hr1 : ∃ n, r1 = some n := by
        cases r1 with
        | none => simp [atGoal] at hat
        | some n => exact ⟨n, rfl⟩
      obtain ⟨n, hn⟩ := hr1
      subst hn
      obtain ⟨hl, nd, hnd⟩ := hlast n rfl
      have hg : goal nd._state = true := by
        simp only [atGoal, hnd, c4, hgoal] at hat
        exact hat
      refine ⟨true, 1, some n, t1, (rnd g).2, ?_, by omega, ?_, ?_, ?_, ?_⟩
      · simp only [runLoop, hgrow, deref, hnd, c4, hgoal, bound, hg, if_true]
      · rw [growN_succ 0 r0 (some n) t t1 g _ hgrow]
        rfl
      · intro j h1 h2
        omega
      · intro _
        refine ⟨le_refl _, ?_, hl, by simp⟩
        rw [hitAt_succ 0 r0 (some n) t t1 g _ hgrow, hh0]
        exact hat
      · intro h
        simp at h
    · have hat' : atGoal t1 r1 = false := by simpa using hat
      have hloop : runLoop (N + 1) t g = runLoop N t1 (rnd g).2 := by
        cases r1 with
        | none => simp only [runLoop, hgrow]
        | some n =>
          obtain ⟨_, nd, hnd⟩ := hlast n rfl
          have hg : goal nd._state = false := by
            simp only [atGoal, hnd, c4, hgoal] at hat'
            exact hat'
          simp [runLoop, hgrow, deref, hnd, c4, hgoal, bound, hg]
      obtain ⟨b, k, r, t', g', hrun, hk, hgN, hbefore, htrue, hfalse⟩ :=
        ih t1 (rnd g).2 r1 (c2.trans hrnd) (c3.trans hdist) (c5.trans hgen) (c1.trans hvalid)
          (c4.trans hgoal)
      refine ⟨b, k + 1, r, t', g', hloop.trans hrun, by omega, ?_, ?_, ?_, ?_⟩
      · rw [growN_succ k r0 r1 t t1 g _ hgrow]
        exact hgN
      · intro j h1 h2
        obtain ⟨j', hj'⟩ := Nat.exists_eq_succ_of_ne_zero (by omega : j ≠ 0)
        subst hj'
        rw [hitAt_succ j' r0 r1 t t1 g _ hgrow]
        cases j' with
        | zero => rw [hh0]; exact hat'
        | succ j'' => exact hbefore _ (by omega) (by omega)
      · intro hb
        obtain ⟨h1, h2, h3⟩ := htrue hb
        refine ⟨by omega, ?_, h3⟩
        rw [hitAt_succ k r0 r1 t t1 g _ hgrow]
        exact h2
      · intro hb
        obtain ⟨h1, h2⟩ := hfalse hb
        refine ⟨by omega, fun _ => ?_⟩
        rw [hitAt_succ k r0 r1 t t1 g _ hgrow]
        cases k with
        | zero => rw [hh0]; exact hat'
        | succ k' => exact h2 (by omega)

/-- C5: with its callbacks bound, `run(start)` returns.  It makes `k` calls of
`grow` after `setup(start)`, with `k` at most `maxIterations`; it returns true
exactly when one of the first `maxIterations` calls returns a node at the goal,
`k` is then the first such call and `lastNode()` is its node; otherwise it makes
all `maxIterations` calls and returns false. -/
theorem run_spec {T G D : Type} [LinearOrderedRing D] (t : Tree T G D) (g : G) (start : T)
    (rnd : G → T × G) (dist : T → T → D) (gen : T → T → T) (valid : T → T → Bool)
    (goal : T → Bool)
    (hrnd : t.randomStateGenerator = some rnd) (hdist : t.distanceCalculator = some dist)
    (hgen : t.intermediateStateGenerator = some gen)
    (hvalid : t.transitionValidator = some valid)
    (hgoal : t.goalProximityChecker = some goal) :
    ∃ (b : Bool) (k : Nat) (r : Option Nat) (t' : Tree T G D) (g' : G),
      t.run g start = .ok (b, t', g') ∧
      k ≤ t._maxIterations.toNat ∧
      growN k none (t.setup start) g = .ok (r, t', g') ∧
      (b = true ↔ ∃ j, 1 ≤ j ∧ j ≤ t._maxIterations.toNat ∧
        hitAt j none (t.setup start) g = true) ∧
      (∀ j, 1 ≤ j → j < k → hitAt j none (t.setup start) g = false) ∧
      (b = true → 1 ≤ k ∧ hitAt k none (t.setup start) g = true ∧ t'.lastNode = r ∧
        r ≠ none) ∧
      (b = false → k = t._maxIterations.toNat) := by
  obtain ⟨b, k, r, t', g', hrun, hk, hgN, hbefore, htrue, hfalse⟩ :=
    runLoop_spec rnd dist gen valid goal t._maxIterations.toNat (t.setup start) g none
      hrnd hdist hgen hvalid hgoal
  refine ⟨b, k, r, t', g', hrun, hk, hgN, ?_, hbefore, htrue, fun hb => (hfalse hb).1⟩
  constructor
  · intro hb
    obtain ⟨h1, h2, _⟩ := htrue hb
    exact ⟨k, h1, hk, h2⟩
  · intro ⟨j, hj1, hj2, hj3⟩
    cases hb : b with
    | true => rfl
    | false =>
      obtain ⟨hkN, hlastk⟩ := hfalse hb
      by_cases hjk : j < k
      · rw [hbefore j hj1 hjk] at hj3
        simp at hj3
      · have hjeq : j = k := by omega
        subst hjeq
        rw [hlastk hj1] at hj3
        simp at hj3

theorem run_spec_witness :
    ∃ (b : Bool) (k : Nat) (r : Option Nat) (t' : Tree Int (List Int) Int) (g' : List Int),
      (lineTree [] 5).run [20, 0, 20] 8 = .ok (b, t', g') ∧
      k ≤ (lineTree [] 5)._maxIterations.toNat ∧
      growN k none ((lineTree [] 5).setup 8) [20, 0, 20] = .ok (r, t', g') ∧
      (b = true ↔ ∃ j, 1 ≤ j ∧ j ≤ (lineTree [] 5)._maxIterations.toNat ∧
        hitAt j none ((lineTree [] 5).setup 8) [20, 0, 20] = true) ∧
      (∀ j, 1 ≤ j → j < k → hitAt j none ((lineTree [] 5).setup 8) [20, 0, 20] = false) ∧
      (b = true → 1 ≤ k ∧ hitAt k none ((lineTree [] 5).setup 8) [20, 0, 20] = true ∧
        t'.lastNode = r ∧ r ≠ none) ∧
      (b = false → k = (lineTree [] 5)._maxIterations.toNat) :=
  run_spec (lineTree [] 5) [20, 0, 20] 8 lineRandom lineDist lineStep lineValid lineGoal
    rfl rfl rfl rfl rfl

theorem received_calls {T : Type} (nodes : List (Node T)) :
    ∀ (fuel : Nat) (dest : Option Nat) (out : List (Invocation T)),
      reverseLoop nodes fuel dest = .ok out → received out = [] := by
  intro fuel
  induction fuel with
  | zero =>
    intro dest out h
    cases dest with
    | none =>
      simp only [reverseLoop, Except.ok.injEq] at h
      rw [← h]
      rfl
    | some i => simp [reverseLoop] at h
  | succ fuel ih =>
    intro dest out h
    cases dest with
    | none =>
      simp only [reverseLoop, Except.ok.injEq] at h
      rw [← h]
      rfl
    | some i =>
      simp only [reverseLoop] at h
      split at h
      · simp at h
      · rename_i n _
        split at h
        · simp at h
        · rename_i rest hrest
          simp only [Except.ok.injEq] at h
          rw [← h]
          simp only [received]
          exact ih _ _ hrest

/-- The `reverse` loop of `getPath` on a chain that reaches the root after `d`
links: it ends, and `call` is handed the states of the chain from `dest` up to
the root. -/
theorem reverse_chain {T : Type} (nodes : List (Node T)) (root : Node T)
    (hroot : nodes[0]? = some root) (hrp : root._parent = none) :
    ∀ (d i : Nat), ancestorAt nodes d i = some 0 → ∀ fuel, d + 1 ≤ fuel →
      ∃ out : List (Invocation T), reverseLoop nodes fuel (some i) = .ok out ∧
        out.length = d + 1 ∧
        ∀ k, k ≤ d → ∃ (a : Nat) (an : Node T), ancestorAt nodes k i = some a ∧
          nodes[a]? = some an ∧ out[k]? = some (.call an._state) := by
  intro d
  induction d with
  | zero =>
    intro i hi fuel hfuel
    have hi0 : i = 0 := by
      simp only [ancestorAt, Option.some.injEq] at hi
      exact hi
    subst hi0
    obtain ⟨f, hf⟩ := Nat.exists_eq_succ_of_ne_zero (by omega : fuel ≠ 0)
    subst hf
    refine ⟨[.call root._state], ?_, rfl, ?_⟩
    · simp only [reverseLoop, deref, hroot, hrp]
    · intro k hk
      have hk0 : k = 0 := by omega
      subst hk0
      exact ⟨0, root, rfl, hroot, by simp⟩
  | succ d ih =>
    intro i hi fuel hfuel
    obtain ⟨f, hf⟩ := Nat.exists_eq_succ_of_ne_zero (by omega : fuel ≠ 0)
    subst hf
    cases hn : nodes[i]? with
    | none => simp [ancestorAt, hn] at hi
    | some n =>
      cases hp : n._parent with
      | none => simp [ancestorAt, hn, hp] at hi
      | some p =>
        rw [ancestorAt_succ nodes d i p n hn hp] at hi
        obtain ⟨out, hout, hlen, hget⟩ := ih p hi f (by omega)
        refine ⟨.call n._state :: out, ?_, by simp [hlen], ?_⟩
        · simp only [reverseLoop, deref, hn, hp, hout]
        · intro k hk
          cases k with
          | zero => exact ⟨i, n, rfl, hn, by simp⟩
          | succ k =>
            rw [ancestorAt_succ nodes k i p n hn hp]
            obtain ⟨a, an, h1, h2, h3⟩ := hget k (by omega)
            exact ⟨a, an, h1, h2, by simpa using h3⟩

/-- The first loop of the forward branch of `getPath` leaves `node` null, and
the list it builds is not empty when `dest` is not null. -/
theorem collectLoop_result {T : Type} (nodes : List (Node T)) :
    ∀ (fuel : Nat) (dest : Option Nat) (acc collected : List Nat) (node : Option Nat),
      collectLoop nodes fuel dest acc = .ok (collected, node) →
      node = none ∧ acc.length ≤ collected.length ∧
        (dest ≠ none → acc.length < collected.length) := by
  intro fuel
  induction fuel with
  | zero =>
    intro dest acc collected node h
    cases dest with
    | none =>
      simp only [collectLoop, Except.ok.injEq, Prod.mk.injEq] at h
      exact ⟨h.2.symm, by rw [h.1], fun hne => absurd rfl hne⟩
    | some i => simp [collectLoop] at h
  | succ fuel ih =>
    intro dest acc collected node h
    cases dest with
    | none =>
      simp only [collectLoop, Except.ok.injEq, Prod.mk.injEq] at h
      exact ⟨h.2.symm, by rw [h.1], fun hne => absurd rfl hne⟩
    | some i =>
      simp only [collectLoop] at h
      split at h
      · simp at h
      · obtain ⟨h1, h2, _⟩ := ih _ _ _ _ h
        simp only [List.length_cons] at h2
        exact ⟨h1, by omega, fun _ => by omega⟩

/-- The two loops of `getPath` walk the same chain: when the `reverse` loop
ends, so does the first loop of the forward branch. -/
theorem collectLoop_of_reverse {T : Type} (nodes : List (Node T)) :
    ∀ (fuel : Nat) (dest : Option Nat) (acc : List Nat) (out : List (Invocation T)),
      reverseLoop nodes fuel dest = .ok out →
      ∃ collected node, collectLoop nodes fuel dest acc = .ok (collected, node) := by
  intro fuel
  induction fuel with
  | zero =>
    intro dest acc out h
    cases dest with
    | none => exact ⟨acc, none, rfl⟩
    | some i => simp [reverseLoop] at h
  | succ fuel ih =>
    intro dest acc out h
    cases dest with
    | none => exact ⟨acc, none, rfl⟩
    | some i =>
      simp only [reverseLoop] at h
      simp only [collectLoop]
      split at h
      · simp at h
      · rename_i n hn
        split at h
        · simp at h
        · rename_i rest hrest
          exact ih _ _ _ hrest

theorem emitLoop_null {T : Type} (nodes : List (Node T)) (x : Nat) (rest : List Nat) :
    (emitLoop nodes none (x :: rest) : Except Fault (List (Invocation T))) =
      .error .nullDereference := rfl

/-- The forward branch of `getPath` never returns normally for a non-null
`dest`, whatever the tree. -/
theorem getPath_forward_never_ok {T G D : Type} (t : Tree T G D) (fuel i : Nat)
    (out : List (Invocation T)) : t.getPath fuel (some i) false ≠ .ok out := by
  intro h
  unfold Tree.getPath at h
  simp only [Bool.false_eq_true, if_false] at h
  split at h
  · simp at h
  · rename_i collected node hc
    obtain ⟨h1, _, h3⟩ := collectLoop_result _ _ _ _ _ _ hc
    have hlen := h3 (by simp)
    subst h1
    cases collected with
    | nil => simp at hlen
    | cons x rest =>
      rw [emitLoop_null] at h
      simp at h

/-- In a tree reachable from `setup`, for every node `dest` and enough fuel:
`depth` returns `d`; the `reverse` branch of `getPath` hands the `d + 1` states
of the chain from `dest` to the root to `call` and none to `callback`; the
forward branch dereferences the null `node`. -/
theorem getPath_reachable {T G D : Type} [LinearOrderedRing D] (t : Tree T G D)
    (h : Reachable t) (i : Nat) (n : Node T) (hi : t._nodes[i]? = some n) :
    ∃ d, (∀ fuel, d ≤ fuel → depth t._nodes fuel i = .ok d) ∧
      ∀ fuel, d + 1 ≤ fuel →
        (∃ out : List (Invocation T), t.getPath fuel (some i) true = .ok out ∧
          out.length = d + 1 ∧ received out = [] ∧
          ∀ k, k ≤ d → ∃ (a : Nat) (an : Node T), ancestorAt t._nodes k i = some a ∧
            t._nodes[a]? = some an ∧ out[k]? = some (.call an._state)) ∧
        t.getPath fuel (some i) false = .error .nullDereference := by
  have hedges := reachable_edges (fun _ _ => True) t h (fun _ _ _ _ _ _ _ => trivial)
  obtain ⟨d, _, hloop, _, hend, _⟩ := chain_of_edges _ t._nodes hedges i n hi
  obtain ⟨root, hroot, hrp⟩ := hedges.1
  refine ⟨d, ?_, ?_⟩
  · intro fuel hfuel
    unfold depth
    simp only [hi]
    rw [hloop fuel 0 hfuel, Nat.zero_add]
  · intro fuel hfuel
    obtain ⟨out, hout, hlen, hget⟩ := reverse_chain t._nodes root hroot hrp d i hend fuel hfuel
    constructor
    · refine ⟨out, ?_, hlen, received_calls _ _ _ _ hout, hget⟩
      unfold Tree.getPath
      simp only [if_true]
      exact hout
    · obtain ⟨collected, node, hc⟩ := collectLoop_of_reverse t._nodes fuel (some i) [] out hout
      obtain ⟨h1, _, h3⟩ := collectLoop_result _ _ _ _ _ _ hc
      have hlen' := h3 (by simp)
      subst h1
      unfold Tree.getPath
      simp only [Bool.false_eq_true, if_false, hc]
      cases collected with
      | nil => simp at hlen'
      | cons x rest => rfl

/-- C1 (the code fails the claim): on the tree built by `setup 3` and one
successful `extend`, with `dest` the new node of depth 1, the forward
`getPath` passes no state to the callback: it dereferences the null `node`. -/
theorem getPath_forward_null :
    ((lineTree [] 5).setup 3).extend 20 none = .ok (some 1, lineTwo) ∧
    depth lineTwo._nodes 2 1 = .ok 1 ∧
    lineTwo.getPath 2 (some 1) false = .error .nullDereference ∧
    lineTwo.getPathVector 2 [] (some 1) false = .error .nullDereference :=
  ⟨rfl, by decide, by decide, by decide⟩

/-- C9 (the code fails the claim): on the tree built by `setup 3` and one
successful `extend`, with `dest` the new node of depth 1, the `reverse` branch
of `getPath` hands the states 4 and 3 to `call`; the callback receives none,
and the vector overload appends nothing. -/
theorem getPath_reverse_call :
    ((lineTree [] 5).setup 3).extend 20 none = .ok (some 1, lineTwo) ∧
    depth lineTwo._nodes 2 1 = .ok 1 ∧
    lineTwo.getPath 2 (some 1) true = .ok [.call 4, .call 3] ∧
    received [Invocation.call (4 : Int), Invocation.call 3] = [] ∧
    lineTwo.getPathVector 2 [] (some 1) true = .ok [] :=
  ⟨rfl, by decide, by decide, by decide, by decide⟩

/-- C11: on a tree without nodes `nearest` returns null and the sentinel distance
`-1`, and `extend` with no source returns null and the same tree; this is so
whatever the callbacks are, also when `distanceCalculator`,
`intermediateStateGenerator` and `transitionValidator` are empty functions whose
call would throw, so none of them is called. -/
theorem empty_tree_null {T G D : Type} [LinearOrderedRing D] (t : Tree T G D) (state : T)
    (h : t._nodes = []) :
    t.nearest state = .ok (none, -1) ∧
    t.extend state none = .ok (none, t) ∧
    ({ t with distanceCalculator := none } : Tree T G D).nearest state = .ok (none, -1) ∧
    ({ t with distanceCalculator := none, intermediateStateGenerator := none,
              transitionValidator := none } : Tree T G D).extend state none =
      .ok (none, { t with distanceCalculator := none, intermediateStateGenerator := none,
                          transitionValidator := none }) := by
  have hext : ∀ u : Tree T G D, u._nodes = [] → u.extend state none = .ok (none, u) := by
    intro u hu
    unfold Tree.extend
    simp only [nearest_empty u state hu]
  exact ⟨nearest_empty t state h, hext t h, nearest_empty _ state h, hext _ h⟩

theorem empty_tree_null_witness :
    (lineTree [] 5).nearest 5 = .ok (none, -1) ∧
    (lineTree [] 5).extend 5 none = .ok (none, lineTree [] 5) ∧
    ({ (lineTree [] 5) with distanceCalculator := none } :
      Tree Int (List Int) Int).nearest 5 = .ok (none, -1) ∧
    ({ (lineTree [] 5) with
        distanceCalculator := none, intermediateStateGenerator := none,
        transitionValidator := none } : Tree Int (List Int) Int).extend 5 none =
      .ok (none, { (lineTree [] 5) with
        distanceCalculator := none, intermediateStateGenerator := none,
        transitionValidator := none }) :=
  empty_tree_null (lineTree [] 5) 5 rfl

/-- C12: with a null `dest`, `getPath` returns normally and has made no
invocation at all, for both values of `reverse` and any loop budget; the vector
overload returns the output vector as it was. -/
theorem getPath_null_dest {T G D : Type} (t : Tree T G D) (fuel : Nat) (reverse : Bool)
    (vectorOut : List T) :
    t.getPath fuel none reverse = .ok [] ∧
    t.getPathVector fuel vectorOut none reverse = .ok vectorOut := by
  have hpath : t.getPath fuel none reverse = .ok [] := by
    unfold Tree.getPath
    cases reverse <;> cases fuel <;> rfl
  refine ⟨hpath, ?_⟩
  unfold Tree.getPathVector
  rw [hpath]
  simp [received]

/-- C13 (fails on the code): on the line planner without nodes, `extend` with no
source and `grow` return null and leave the tree as it was, with no error; a
rejected transition on a tree with a root gives a result of the same form. -/
theorem grow_before_setup_silent :
    (lineTree [] 5).extend 20 none = .ok (none, lineTree [] 5) ∧
    (lineTree [] 5).grow [20] = .ok (none, lineTree [] 5, []) ∧
    (¬ ∃ e, (lineTree [] 5).extend 20 none = .error e) ∧
    (¬ ∃ e, (lineTree [] 5).grow [20] = .error e) ∧
    (lineTree [⟨6, [], none⟩] 5).extend 20 none = .ok (none, lineTree [⟨6, [], none⟩] 5) := by
  have h1 : (lineTree [] 5).extend 20 none = .ok (none, lineTree [] 5) := rfl
  have h2 : (lineTree [] 5).grow [20] = .ok (none, lineTree [] 5, []) := rfl
  refine ⟨h1, h2, ?_, ?_, rfl⟩
  · rintro ⟨e, he⟩
    rw [h1] at he
    cases he
  · rintro ⟨e, he⟩
    rw [h2] at he
    cases he

/-- C13 as amended: on a tree without nodes, `extend` with no source returns null
and the same tree, and so does `grow`, after one draw, when
`randomStateGenerator` is bound; the only error is the exception of an empty
`randomStateGenerator`. -/
theorem grow_before_setup {T G D : Type} [LinearOrderedRing D] (t : Tree T G D) (target : T)
    (g : G) (h : t._nodes = []) :
    t.extend target none = .ok (none, t) ∧
    (∀ rnd : G → T × G, t.randomStateGenerator = some rnd →
      t.grow g = .ok (none, t, (rnd g).2)) ∧
    (t.randomStateGenerator = none → t.grow g = .error .badFunctionCall) := by
  have hext : ∀ x : T, t.extend x none = .ok (none, t) := by
    intro x
    unfold Tree.extend
    simp only [nearest_empty t x h]
  refine ⟨hext target, ?_, ?_⟩
  · intro rnd hrnd
    unfold Tree.grow
    simp only [hrnd, bound, hext]
  · intro hrnd
    unfold Tree.grow
    simp only [hrnd, bound]

theorem grow_before_setup_witness :
    (lineTree [] 5).extend 20 none = .ok (none, lineTree [] 5) ∧
    (∀ rnd : List Int → Int × List Int, (lineTree [] 5).randomStateGenerator = some rnd →
      (lineTree [] 5).grow [20] = .ok (none, lineTree [] 5, (rnd [20]).2)) ∧
    ((lineTree [] 5).randomStateGenerator = none →
      (lineTree [] 5).grow [20] = .error .badFunctionCall) :=
  grow_before_setup (lineTree [] 5) 20 [20] rfl

/-- Calling `extend` without a source is calling it with the node `nearest` finds. -/
theorem extend_none_eq {T G D : Type} [LinearOrderedRing D] (t : Tree T G D) (r : T) :
    (∀ e, t.nearest r = .error e → t.extend r none = .error e) ∧
    (∀ source d, t.nearest r = .ok (source, d) → t.extend r none = t.extend r source) := by
  constructor
  · intro e he
    unfold Tree.extend
    simp only [he]
  · intro source d hn
    cases source with
    | none => rfl
    | some s =>
      unfold Tree.extend
      simp only [hn]

/-- C14: `grow` is one call of `randomStateGenerator`, giving `r`, followed by
`extend(r, nearest(r))`: same returned node, same tree, and the generator has
advanced by one draw; when the transition from the nearest node toward `r` is
rejected it returns null and the same tree. -/
theorem grow_is_extend {T G D : Type} [LinearOrderedRing D] (t : Tree T G D) (g : G) :
    t.grow g = growAsExtend t g ∧
    (∀ (r : Option Nat) (t' : Tree T G D) (g' : G), t.grow g = .ok (r, t', g') →
      ∃ (rnd : G → T × G) (source : Option Nat) (d : D),
        t.randomStateGenerator = some rnd ∧ g' = (rnd g).2 ∧
        t.nearest (rnd g).1 = .ok (source, d) ∧ t.extend (rnd g).1 source = .ok (r, t')) ∧
    (∀ (rnd : G → T × G) (s : Nat) (d : D) (sn : Node T) (gen : T → T → T)
        (valid : T → T → Bool),
      t.randomStateGenerator = some rnd → t.nearest (rnd g).1 = .ok (some s, d) →
      t._nodes[s]? = some sn → t.intermediateStateGenerator = some gen →
      t.transitionValidator = some valid →
      valid sn._state (gen sn._state (rnd g).1) = false →
      t.grow g = .ok (none, t, (rnd g).2)) := by
  have heq : t.grow g = growAsExtend t g := by
    unfold Tree.grow growAsExtend
    cases hr : t.randomStateGenerator with
    | none => rfl
    | some rnd =>
      simp only [bound]
      obtain ⟨h1, h2⟩ := extend_none_eq t (rnd g).1
      cases hn : t.nearest (rnd g).1 with
      | error e => rw [h1 e hn]
      | ok p =>
        obtain ⟨source, d⟩ := p
        rw [h2 source d hn]
  refine ⟨heq, ?_, ?_⟩
  · intro r t' g' hgrow
    obtain ⟨rnd, hrnd, hg', hext⟩ := grow_cases t t' g g' r hgrow
    obtain ⟨h1, h2⟩ := extend_none_eq t (rnd g).1
    cases hn : t.nearest (rnd g).1 with
    | error e =>
      rw [h1 e hn] at hext
      cases hext
    | ok p =>
      obtain ⟨source, d⟩ := p
      rw [h2 source d hn] at hext
      exact ⟨rnd, source, d, hrnd, hg', hn, hext⟩
  · intro rnd s d sn gen valid hrnd hn hs hgen hvalid hrej
    have heval := extend_eval t (rnd g).1 none s sn gen valid (Or.inr ⟨rfl, d, hn⟩) hs hgen
      hvalid
    rw [hrej, if_neg (by simp)] at heval
    unfold Tree.grow
    simp only [hrnd, bound, heval]

theorem grow_is_extend_witness :
    (lineTree [⟨6, [], none⟩] 5).grow [20] = growAsExtend (lineTree [⟨6, [], none⟩] 5) [20] ∧
    (lineTree [⟨6, [], none⟩] 5).grow [20] = .ok (none, lineTree [⟨6, [], none⟩] 5, []) :=
  ⟨(grow_is_extend (lineTree [⟨6, [], none⟩] 5) [20]).1,
    (grow_is_extend (lineTree [⟨6, [], none⟩] 5) [20]).2.2 lineRandom 0 14 ⟨6, [], none⟩
      lineStep lineValid rfl (by decide) rfl rfl rfl (by decide)⟩

/-- The scan of `nearest` when every distance is negative: the test
`bestDistance < 0` stays true, so every node replaces the one before. -/
theorem nearestLoop_negative {T D : Type} [LinearOrderedRing D] (f : T → T → D) (state : T) :
    ∀ (rest : List (Node T)) (i : Nat) (bd : D) (best : Option Nat), bd < 0 →
      (∀ x ∈ rest, f x._state state < 0) →
      nearestLoop (some f) state rest i bd best =
        .ok (match rest.getLast? with
          | none => (bd, best)
          | some l => (f l._state state, some (i + rest.length - 1))) := by
  intro rest
  induction rest with
  | nil =>
    intro i bd best _ _
    rfl
  | cons x xs ih =>
    intro i bd best hbd hneg
    unfold nearestLoop
    simp only
    rw [if_pos (Or.inl hbd)]
    rw [ih (i + 1) (f x._state state) (some i) (hneg x (by simp))
      (fun y hy => hneg y (by simp [hy]))]
    cases xs with
    | nil => simp
    | cons y ys =>
      simp only [List.getLast?_cons_cons, List.length_cons]
      cases hl : (y :: ys).getLast? with
      | none => simp at hl
      | some l =>
        simp only [Except.ok.injEq, Prod.mk.injEq, Option.some.injEq, true_and]
        omega

/-- C16: when `distanceCalculator` is negative on every node of a non-empty tree,
`nearest` returns the last node in insertion order and reports its distance,
whichever node is closest; on the tree with nodes 3 and 4 and the distance
`|a - b| - 10`, the query 3 gets node 4 at distance -9 although the root is at
distance -10. -/
theorem negative_sentinel {T G D : Type} [LinearOrderedRing D] (t : Tree T G D) (state : T)
    (dist : T → T → D) (last : Node T) (hdist : t.distanceCalculator = some dist)
    (hlast : t._nodes.getLast? = some last)
    (hneg : ∀ n ∈ t._nodes, dist n._state state < 0) :
    t.nearest state = .ok (some (t._nodes.length - 1), dist last._state state) ∧
    t._nodes[t._nodes.length - 1]? = some last ∧
    (2 ≤ negTree._nodes.length ∧ negTree.nearest 3 = .ok (some 1, -9) ∧
      negTree._nodes[0]? = some ⟨3, [1], none⟩ ∧ lineNegDist 3 3 < -9) := by
  refine ⟨?_, ?_, by decide⟩
  · unfold Tree.nearest
    rw [hdist, nearestLoop_negative dist state t._nodes 0 (-1) none (by simp) hneg, hlast]
    simp
  · rw [List.getLast?_eq_getElem?] at hlast
    exact hlast

theorem negative_sentinel_witness :
    negTree.nearest 3 = .ok (some (negTree._nodes.length - 1), lineNegDist 4 3) ∧
    negTree._nodes[negTree._nodes.length - 1]? = some ⟨4, [], some 0⟩ ∧
    (2 ≤ negTree._nodes.length ∧ negTree.nearest 3 = .ok (some 1, -9) ∧
      negTree._nodes[0]? = some ⟨3, [1], none⟩ ∧ lineNegDist 3 3 < -9) :=
  negative_sentinel negTree 3 lineNegDist ⟨4, [], some 0⟩ rfl rfl (by decide)

/-- A call of `grow` on a tree with nodes whose validator rejects everything
returns null and the same tree. -/
theorem grow_rejected {T G D : Type} [LinearOrderedRing D] (t : Tree T G D) (g : G)
    (rnd : G → T × G) (dist : T → T → D) (gen : T → T → T) (valid : T → T → Bool)
    (hne : t._nodes ≠ [])
    (hrnd : t.randomStateGenerator = some rnd) (hdist : t.distanceCalculator = some dist)
    (hgen : t.intermediateStateGenerator = some gen)
    (hvalid : t.transitionValidator = some valid) (hrej : ∀ a b, valid a b = false) :
    t.grow g = .ok (none, t, (rnd g).2) := by
  obtain ⟨s, d, hn, hlt⟩ := nearest_nonempty t (rnd g).1 dist hdist hne
  have hs : t._nodes[s]? = some (t._nodes[s]) := List.getElem?_eq_getElem hlt
  have heval := extend_eval t (rnd g).1 none s _ gen valid (Or.inr ⟨rfl, d, hn⟩) hs hgen hvalid
  rw [hrej, if_neg (by simp)] at heval
  unfold Tree.grow
  simp only [hrnd, bound, heval]

theorem runLoop_rejected {T G D : Type} [LinearOrderedRing D] (t : Tree T G D)
    (rnd : G → T × G) (dist : T → T → D) (gen : T → T → T) (valid : T → T → Bool)
    (hne : t._nodes ≠ [])
    (hrnd : t.randomStateGenerator = some rnd) (hdist : t.distanceCalculator = some dist)
    (hgen : t.intermediateStateGenerator = some gen)
    (hvalid : t.transitionValidator = some valid) (hrej : ∀ a b, valid a b = false) :
    ∀ (N : Nat) (g : G), runLoop N t g = .ok (false, t, (fun x => (rnd x).2)^[N] g) := by
  intro N
  induction N with
  | zero => intro g; rfl
  | succ N ih =>
    intro g
    have hgrow := grow_rejected t g rnd dist gen valid hne hrnd hdist hgen hvalid hrej
    simp only [runLoop, hgrow, ih, Function.iterate_succ_apply]

/-- C17: when `maxIterations` is zero or negative, or when the callbacks are
bound and `transitionValidator` rejects every transition, `run(start)` returns
false and the tree holds exactly the root built by `setup`, whatever
`goalProximityChecker` says about `start`: the goal check is never made on the
root. -/
theorem run_ignores_root {T G D : Type} [LinearOrderedRing D] (t : Tree T G D) (g : G)
    (start : T)
    (h : t._maxIterations ≤ 0 ∨
      ∃ (rnd : G → T × G) (dist : T → T → D) (gen : T → T → T) (valid : T → T → Bool),
        t.randomStateGenerator = some rnd ∧ t.distanceCalculator = some dist ∧
        t.intermediateStateGenerator = some gen ∧ t.transitionValidator = some valid ∧
        ∀ a b, valid a b = false) :
    ∃ g', t.run g start = .ok (false, t.setup start, g') ∧
      (t.setup start)._nodes = [⟨start, [], none⟩] := by
  rcases h with h | ⟨rnd, dist, gen, valid, hrnd, hdist, hgen, hvalid, hrej⟩
  · refine ⟨g, ?_, rfl⟩
    unfold Tree.run
    rw [Int.toNat_eq_zero.2 h]
    rfl
  · refine ⟨(fun x => (rnd x).2)^[t._maxIterations.toNat] g, ?_, rfl⟩
    unfold Tree.run
    exact runLoop_rejected (t.setup start) rnd dist gen valid
      (by simp [Tree.setup, Tree.reset, Node.new]) hrnd hdist hgen hvalid hrej _ g

theorem run_ignores_root_witness :
    (∃ g', (stuckTree 3).run [1, 2, 3, 4] 12 = .ok (false, (stuckTree 3).setup 12, g') ∧
      ((stuckTree 3).setup 12)._nodes = [⟨12, [], none⟩]) ∧
    atGoal ((stuckTree 3).setup 12) (some 0) = true :=
  ⟨run_ignores_root (stuckTree 3) [1, 2, 3, 4] 12
    (Or.inr ⟨lineRandom, lineDist, lineStep, fun _ _ => false, rfl, rfl, rfl, rfl,
      fun _ _ => rfl⟩), rfl⟩

/-- The second `erase` of `slot_reset` is always made at `end()`. -/
theorem vectorErase_end {P : Type} (v : List P) :
    vectorErase v v.length = .error .notDereferenceable := by
  simp [vectorErase]

/-- With both solution nodes set and a previous solution that is not empty,
`slot_reset` runs into the `erase` at `end()`. -/
theorem slot_reset_solution {B P : Type} (planner : BiRRTOps B P)
    (downSampleVector : List P → Int → List P) (w : GridRRTWidget B P) (s e : Nat)
    (hs : planner.startSolutionNode w._biRRT = some s)
    (he : planner.goalSolutionNode w._biRRT = some e)
    (hne : w._previousSolution ≠ []) :
    w.slot_reset planner downSampleVector = .error .notDereferenceable := by
  obtain ⟨p, ps, hp⟩ := List.exists_cons_of_ne_nil hne
  simp [GridRRTWidget.slot_reset, waypointCache, hs, he, hp, vectorErase]

/-- Without a solution `slot_reset` hands the planner, after its reset, an empty
waypoint list and clears the stored previous solution. -/
theorem slot_reset_no_solution {B P : Type} (planner : BiRRTOps B P)
    (downSampleVector : List P → Int → List P) (w : GridRRTWidget B P)
    (h : planner.startSolutionNode w._biRRT = none ∨
      planner.goalSolutionNode w._biRRT = none) :
    w.slot_reset planner downSampleVector =
      .ok { w with
        _biRRT := planner.setWaypoints (planner.reset w._biRRT) []
        _previousSolution := [] } := by
  rcases h with h | h <;> simp [GridRRTWidget.slot_reset, waypointCache, h]

/-- C15 (the code fails the claim): with both solution nodes set and the previous
solution 10, 20, 30, the waypoint list to hand over is the interior state 20,
but `slot_reset` calls `erase` at `end()` after removing the first state, which
is undefined; the same with the one-state solution 10, where the vector is
empty by then. -/
theorem slot_reset_erase_end :
    ((GridRRTWidget.new ⟨some 1, some 2, []⟩ : GridRRTWidget PlannerStub Int))._waypointCacheMaxSize
      = 15 ∧
    interiorWaypoints takeSample [10, 20, 30] 15 = [20] ∧
    vectorErase [10, 20, 30] 0 = .ok [20, 30] ∧
    vectorErase [20, 30] ([20, 30] : List Int).length = .error .notDereferenceable ∧
    GridRRTWidget.slot_reset stubOps takeSample ⟨⟨some 1, some 2, []⟩, [10, 20, 30], 15⟩ =
      .error .notDereferenceable ∧
    GridRRTWidget.slot_reset stubOps takeSample ⟨⟨some 1, some 2, []⟩, [10], 15⟩ =
      .error .notDereferenceable := by
  refine ⟨rfl, by decide, by decide, by decide, ?_, ?_⟩
  · exact slot_reset_solution stubOps takeSample _ 1 2 rfl rfl (by simp)
  · exact slot_reset_solution stubOps takeSample _ 1 2 rfl rfl (by simp)


end RRT
